/-
Verification of the safe-flight routing program (ICPC 2012 WF problem J
solutions, files src/main.c and src/main.cpp) against its design
specification.

The two source files are independent implementations of the same problem.
Numeric values of type double / long double are modelled as exact rationals
(for the purely order-and-arithmetic algorithmic parts: interval sweeping,
Floyd-Warshall, capacity filtering) or as real numbers (for the geometric
parts that use sqrt, trigonometric and inverse-trigonometric functions).
The IEEE value INFINITY of main.cpp is modelled as the top element of
WithTop, and the sentinel 1e100 of main.c as the literal rational 10^100.

Naming: definitions embedded from src/main.c live in namespace MC,
definitions embedded from src/main.cpp live in namespace MCpp.  Source
names are kept wherever Lean allows.  The file is organised as all
definitions first, then all theorems.
-/
import Mathlib

namespace MC

/-- Tolerance 1e-12 used throughout the interval sweep of main.c. -/
def tol12 {α : Type*} [LinearOrderedField α] : α := 1 / 10 ^ 12

/-- Sentinel INF = 1e100 of main.c. -/
def INFC {α : Type*} [LinearOrderedField α] : α := 10 ^ 100

section SweepDefs

variable {α : Type*} [LinearOrderedField α]

/-- Inner while-loop of the interval merge in main.c (lines 200-203):
while the next interval starts within tolerance of the (fixed) current
reach, absorb it into the running best end.  Returns the best end seen
and the unconsumed suffix of the interval list. -/
def innerScan (reach best : α) : List (α × α) → α × List (α × α)
  | [] => (best, [])
  | (s, e) :: rest =>
    if s ≤ reach + tol12 then innerScan reach (max best e) rest
    else (best, (s, e) :: rest)

/-- Outer while-loop of the interval merge in main.c (lines 197-206):
starting from reach = 0, repeatedly absorb all intervals starting within
tolerance of the current reach, extending the reach to the best end;
break as soon as the reach attains theta_ab - 1e-12.  Returns the final
reach. -/
def sweepGo : List (α × α) → α → α → α
  | [], reach, _ => reach
  | (s, e) :: rest, reach, th =>
    if s ≤ reach + tol12 then
      let p := innerScan reach (max reach e) rest
      if p.1 ≥ th - tol12 then p.1 else sweepGo p.2 p.1 th
    else reach
termination_by l => l.length
decreasing_by
  simp only [List.length_cons]
  have key : ∀ (b : α) (l : List (α × α)),
      (innerScan reach b l).2.length ≤ l.length := by
    intro b l
    induction l generalizing b with
    | nil => simp [innerScan]
    | cons q rest2 ih =>
      obtain ⟨s2, e2⟩ := q
      by_cases hc : s2 ≤ reach + tol12
      · simp only [innerScan, if_pos hc]
        exact le_trans (ih (max b e2)) (Nat.le_succ _)
      · simp [innerScan, if_neg hc]
  exact Nat.lt_succ_of_le (key _ _)

/-- Sorting of the gathered intervals by start, as done by qsort with
compare_intervals (lines 60-66, 195) in main.c. -/
def sortIvs (l : List (α × α)) : List (α × α) :=
  l.mergeSort (fun a b => decide (a.1 ≤ b.1))

/-- Edge decision of main.c for one vertex pair (lines 139 and 194-211),
parameterized by the great-circle angle theta_ab and by the coverage
intervals gathered from the per-airport analysis: pairs closer than 1e-12
are skipped, an empty interval list is skipped, otherwise the sorted
sweep decides between the edge weight theta_ab * 6370 (EARTH_R) and the
sentinel INF (no edge). -/
def edgeWeightC (th : α) (ivs : List (α × α)) : α :=
  if th < tol12 then INFC
  else if ivs = [] then INFC
  else if sweepGo (sortIvs ivs) 0 th ≥ th - tol12 then th * 6370 else INFC

/-- Specification-side sweep, following the words of the spec (section
4.4): sort by start, then sweep, merging any interval whose start is
within tolerance of the current reach into reach = max reach end. -/
def specReach (r : α) (l : List (α × α)) : α :=
  l.foldl (fun r p => if p.1 ≤ r + tol12 then max r p.2 else r) r

/-- Specification-side coverage predicate: some intervals were gathered
and the merged sweep over the sorted list reaches theta - tolerance. -/
def specCovered (th : α) (ivs : List (α × α)) : Prop :=
  ivs ≠ [] ∧ specReach 0 (sortIvs ivs) ≥ th - tol12

end SweepDefs

/-- The two operands of the addition performed by the Floyd-Warshall
relaxation of main.c (lines 215-221): the code skips the whole inner row
when D[i][k] >= INF, but otherwise computes via = D[i][k] + D[k][j]
without inspecting D[k][j].  Returns the operand pair actually summed,
or none when no addition is performed. -/
def relaxSummands {n : ℕ} (D : Fin n → Fin n → ℚ) (i k j : Fin n) :
    Option (ℚ × ℚ) :=
  if D i k ≥ INFC then none else some (D i k, D k j)

/-- Formalisation of the guard condition claimed by the spec for one
main.c relaxation: whenever an addition is performed, both of its
operands are below the INF sentinel. -/
def relaxGuarded {n : ℕ} (D : Fin n → Fin n → ℚ) (i k j : Fin n) : Prop :=
  ∀ p : ℚ × ℚ, relaxSummands D i k j = some p → p.1 < INFC ∧ p.2 < INFC

/-- Single entry update of main.c Floyd-Warshall (lines 218-220): compute
via = D[i][k] + D[k][j] (guarded only by D[i][k] < INF) and store it when
it improves D[i][j]. -/
def relaxEntryC {n : ℕ} (D : Fin n → Fin n → ℚ) (i k j : Fin n) : ℚ :=
  if D i k ≥ INFC then D i j
  else if D i k + D k j < D i j then D i k + D k j else D i j

/-- Concrete 3-vertex adjacency matrix (airports 0 and 1 joined by a safe
arc of length 5, vertex 2 isolated), used to exhibit a main.c relaxation
whose second operand is the INF sentinel. -/
def Dcex : Fin 3 → Fin 3 → ℚ :=
  fun i j =>
    if i = j then 0
    else if (i = 0 ∧ j = 1) ∨ (i = 1 ∧ j = 0) then 5 else INFC

end MC

namespace MCpp

/-- Weight type of the main.cpp distance matrices: long double values
together with INFINITY, modelled as WithTop of the rationals. -/
abbrev QW := WithTop ℚ

/-- Square matrix over the (augmented or airport) vertex set. -/
abbrev Mat (n : ℕ) := Fin n → Fin n → QW

/-- EPS = 1e-9 of main.cpp. -/
def EPSq : ℚ := 1 / 10 ^ 9

/-- Value stored by one main.cpp Floyd-Warshall relaxation (lines
390-397 and 426-433): when both adj[i][k] and adj[k][j] are finite,
adj[i][j] becomes min(adj[i][j], adj[i][k] + adj[k][j]); otherwise it is
left unchanged. -/
def relaxVal {n : ℕ} (M : Mat n) (k i j : Fin n) : QW :=
  if M i k ≠ ⊤ ∧ M k j ≠ ⊤ then min (M i j) (M i k + M k j) else M i j

/-- The operand pair of the addition performed by one main.cpp
relaxation, or none when the guard suppresses the addition. -/
def relaxSummandsCpp {n : ℕ} (M : Mat n) (k i j : Fin n) :
    Option (QW × QW) :=
  if M i k ≠ ⊤ ∧ M k j ≠ ⊤ then some (M i k, M k j) else none

/-- In-place update of the single matrix entry (i, j). -/
def setEntry {n : ℕ} (M : Mat n) (i j : Fin n) (x : QW) : Mat n :=
  fun a b => if a = i ∧ b = j then x else M a b

/-- Innermost j-loop of the in-place Floyd-Warshall of main.cpp. -/
def fwJ {n : ℕ} (M : Mat n) (k i : Fin n) : List (Fin n) → Mat n
  | [] => M
  | j :: js => fwJ (setEntry M i j (relaxVal M k i j)) k i js

/-- Middle i-loop of the in-place Floyd-Warshall of main.cpp. -/
def fwI {n : ℕ} (M : Mat n) (k : Fin n) : List (Fin n) → Mat n
  | [] => M
  | i :: is2 => fwI (fwJ M k i (List.finRange n)) k is2

/-- Outer k-loop of the in-place Floyd-Warshall of main.cpp. -/
def fwK {n : ℕ} (M : Mat n) : List (Fin n) → Mat n
  | [] => M
  | k :: ks => fwK (fwI M k (List.finRange n)) ks

/-- All-pairs pass of main.cpp (lines 390-398 on the augmented graph,
lines 426-434 on the per-query airport graph): the triple nested loop of
in-place relaxations. -/
def floydWarshall {n : ℕ} (M : Mat n) : Mat n := fwK M (List.finRange n)

/-- Functional description of one k-round: every entry is relaxed
through vertex k using the round-start matrix. -/
def funRound {n : ℕ} (M : Mat n) (k : Fin n) : Mat n :=
  fun i j => min (M i j) (M i k + M k j)

/-- Iterated functional rounds, used to reason about the in-place pass. -/
def roundsF {n : ℕ} (M : Mat n) : List (Fin n) → Mat n
  | [] => M
  | k :: ks => roundsF (funRound M k) ks

/-- Pointwise order on matrices. -/
def MatLE {n : ℕ} (A B : Mat n) : Prop := ∀ i j, A i j ≤ B i j

/-- Zero diagonal. -/
def Diag0 {n : ℕ} (M : Mat n) : Prop := ∀ i, M i i = 0

/-- All entries non-negative. -/
def Nonneg {n : ℕ} (M : Mat n) : Prop := ∀ i j, 0 ≤ M i j

/-- Symmetry. -/
def Symm {n : ℕ} (M : Mat n) : Prop := ∀ i j, M i j = M j i

/-- Capacity-filtered airport graph of one query (main.cpp lines
410-423): diagonal 0; for i different from j, the edge carries the
augmented-graph distance adj_aux[av i][av j] when that distance is at
most capacity + EPS, and is absent (infinite) otherwise.  av is the
airport-to-vertex index map airport_to_vertex_idx. -/
def filteredAdj {v n : ℕ} (adjAux : Mat v) (av : Fin n → Fin v) (c : ℚ) :
    Mat n :=
  fun i j =>
    if i = j then 0
    else if adjAux (av i) (av j) ≤ ((c + EPSq : ℚ) : QW) then
      adjAux (av i) (av j)
    else ⊤

/-- Per-query distance reported by main.cpp (lines 426-439): the (s, t)
entry of Floyd-Warshall over the capacity-filtered airport graph.  The
program prints the token "impossible" exactly when this value is
INFINITY (modelled by the top element) and the fixed-precision distance
otherwise. -/
def queryDist {v n : ℕ} (adjAux : Mat v) (av : Fin n → Fin v) (c : ℚ)
    (s t : Fin n) : QW :=
  floydWarshall (filteredAdj adjAux av c) s t

/-- Reachability along the edges of the filtered airport graph: a chain
of capacity-respecting safe legs (finite filtered entries) from s to t. -/
def ConnectedIn {n : ℕ} (A : Mat n) (s t : Fin n) : Prop :=
  Relation.ReflTransGen (fun a b => A a b ≠ ⊤) s t

end MCpp

/-- Shared 3-component vector of real coordinates: struct Vec of main.c
and struct Point of main.cpp are both three doubles x, y, z. -/
structure V3 where
  x : ℝ
  y : ℝ
  z : ℝ

noncomputable section Geometry

open scoped Classical

namespace MC

/-- dot product (main.c lines 15-17). -/
def dot (a b : V3) : ℝ := a.x * b.x + a.y * b.y + a.z * b.z

/-- cross product (main.c lines 19-23). -/
def cross (a b : V3) : V3 :=
  ⟨a.y * b.z - a.z * b.y, a.z * b.x - a.x * b.z, a.x * b.y - a.y * b.x⟩

/-- norm (main.c lines 25-27). -/
def norm (a : V3) : ℝ := Real.sqrt (dot a a)

/-- scale (main.c lines 29-31). -/
def scale (v : V3) (s : ℝ) : V3 := ⟨v.x * s, v.y * s, v.z * s⟩

/-- addv (main.c lines 33-37). -/
def addv (a b : V3) : V3 := ⟨a.x + b.x, a.y + b.y, a.z + b.z⟩

/-- subv (main.c lines 39-43). -/
def subv (a b : V3) : V3 := ⟨a.x - b.x, a.y - b.y, a.z - b.z⟩

/-- normalize (main.c lines 45-48): scales to unit length when the norm
is positive, otherwise leaves the vector unchanged. -/
def normalize (v : V3) : V3 := if norm v > 0 then scale v (1 / norm v) else v

/-- sph2vec (main.c lines 50-57): (lon, lat) in degrees to a unit
vector. -/
def sph2vec (lon_deg lat_deg : ℝ) : V3 :=
  ⟨Real.cos (lat_deg * Real.pi / 180) * Real.cos (lon_deg * Real.pi / 180),
    Real.cos (lat_deg * Real.pi / 180) * Real.sin (lon_deg * Real.pi / 180),
    Real.sin (lat_deg * Real.pi / 180)⟩

/-- Manual clamp of the pair cosine (main.c line 137). -/
def clampPM1 (x : ℝ) : ℝ := if x > 1 then 1 else if x < -1 then -1 else x

/-- C library atan2, written through the complex argument:
atan2(y, x) = arg(x + y i), with values in the interval (-pi, pi]. -/
def atan2 (y x : ℝ) : ℝ := Complex.arg ⟨x, y⟩

/-- Denotation of the two normalisation loops of main.c (lines 164-167):
while (t < 0) t += 2 pi, then while (t > 2 pi) t -= 2 pi. -/
def norm2pi (t : ℝ) : ℝ :=
  let y := if t < 0 then t - 2 * Real.pi * ⌊t / (2 * Real.pi)⌋ else t
  if y > 2 * Real.pi then y - 2 * Real.pi * (⌈y / (2 * Real.pi)⌉ - 1) else y

/-- Coverage interval computation of main.c for one airport disk (lines
150-191): from du = dot(U, Ai) and dw = dot(W, Ai), solve
du cos t + dw sin t >= cosA as R cos(t - phi) >= cosA, and intersect the
raw interval [phi - delta, phi + delta] (endpoints normalised into
[0, 2 pi]) with [0, theta_ab], splitting on wraparound. -/
def coverIntervals (U W Ai : V3) (cosA th : ℝ) : List (ℝ × ℝ) :=
  let du := dot U Ai
  let dw := dot W Ai
  let Rv := Real.sqrt (du * du + dw * dw)
  if Rv < 1 / 10 ^ 15 then []
  else if Rv < cosA then []
  else
    let phi := atan2 dw du
    let delta := Real.arccos (cosA / Rv)
    let t1 := norm2pi (phi - delta)
    let t2 := norm2pi (phi + delta)
    if t1 ≤ t2 then
      if t2 < 0 ∨ t1 > th then [] else [(max 0 t1, min th t2)]
    else
      (if t1 ≤ th then [(t1, th)] else []) ++
        (if t2 ≥ 0 then
          if min th t2 > max 0 0 then [(max 0 0, min th t2)] else []
        else [])

/-- Membership of a parameter in the union of a list of closed
intervals. -/
def memIv (t : ℝ) (l : List (ℝ × ℝ)) : Prop := ∃ p ∈ l, p.1 ≤ t ∧ t ≤ p.2

/-- Arc basis vector W as actually computed by main.c (lines 141-144):
(V[b] - V[a]) / sin(theta_ab).  The inline comment of the source claims
W = (V[b] - U cos(theta_ab)) / sin(theta_ab) instead. -/
def abW (va vb : V3) (th : ℝ) : V3 := scale (subv vb va) (1 / Real.sin th)

/-- Per-pair edge computation of main.c (lines 134-211): angle from the
clamped dot product, unconditional skip below 1e-12, then gather the
per-airport coverage intervals over the basis (U, W) and decide the
edge by the sorted sweep. -/
def edgeForPair (va vb : V3) (airports : List V3) (cosA : ℝ) : ℝ :=
  let th := Real.arccos (clampPM1 (dot va vb))
  if th < tol12 then INFC
  else
    edgeWeightC th
      ((airports.map fun Ai => coverIntervals va (abW va vb th) Ai cosA th).flatten)

/-- Ordered pairs i < j of a list, in the order of the double loops of
main.c line 93 and main.cpp lines 335-336. -/
def ordPairs {β : Type*} : List β → List (β × β)
  | [] => []
  | a :: rest => (rest.map fun b => (a, b)) ++ ordPairs rest

/-- Intersection points of two safety-circle boundaries in main.c
(lines 94-123): closed-form p = k (u + v), displaced by plus/minus h n.
Returns the zero or two candidate nodes pushed by the loop body. -/
def circleNodes (u v : V3) (alpha : ℝ) : List V3 :=
  let cuv := dot u v
  if cuv < Real.cos (2 * alpha) - 1 / 10 ^ 12 then []
  else
    let Delta := 1 - cuv * cuv
    if Delta < 1 / 10 ^ 15 then []
    else
      let k := Real.cos alpha * (1 - cuv) / Delta
      let p : V3 := ⟨k * (u.x + v.x), k * (u.y + v.y), k * (u.z + v.z)⟩
      let h2 := 1 - dot p p
      let h := Real.sqrt (if h2 < 0 then 0 else h2)
      let nv := cross u v
      let nl := norm nv
      if nl < 1 / 10 ^ 15 then []
      else
        let nh := scale (scale nv (1 / nl)) h
        [normalize (addv p nh), normalize (subv p nh)]

/-- Node list construction of main.c (lines 84-124): the airports
followed by all circle-boundary intersection candidates.  main.c does
not deduplicate the node list. -/
def buildNodes (airports : List V3) (alpha : ℝ) : List V3 :=
  airports ++ ((ordPairs airports).map fun p => circleNodes p.1 p.2 alpha).flatten

/-- Airport list read from the (lon, lat) input records (main.c lines
75-79). -/
def airportsOf (input : List (ℝ × ℝ)) : List V3 :=
  input.map fun p => sph2vec p.1 p.2

end MC

namespace MCpp

/-- EPS = 1e-9 of main.cpp, as a real number. -/
def EPSR : ℝ := 1 / 10 ^ 9

/-- R_earth = 6370.0 of main.cpp. -/
def R_earth : ℝ := 6370

/-- dot (main.cpp lines 49-51). -/
def dot (p1 p2 : V3) : ℝ := p1.x * p2.x + p1.y * p2.y + p1.z * p2.z

/-- cross (main.cpp lines 54-58). -/
def cross (p1 p2 : V3) : V3 :=
  ⟨p1.y * p2.z - p1.z * p2.y, p1.z * p2.x - p1.x * p2.z,
    p1.x * p2.y - p1.y * p2.x⟩

/-- magnitude (main.cpp lines 61-63). -/
def magnitude (p : V3) : ℝ := Real.sqrt (dot p p)

/-- operator+ of main.cpp (line 31). -/
def addP (a b : V3) : V3 := ⟨a.x + b.x, a.y + b.y, a.z + b.z⟩

/-- operator- of main.cpp (line 32). -/
def subP (a b : V3) : V3 := ⟨a.x - b.x, a.y - b.y, a.z - b.z⟩

/-- operator* with a scalar of main.cpp (lines 33-34). -/
def smul (a : V3) (s : ℝ) : V3 := ⟨a.x * s, a.y * s, a.z * s⟩

/-- operator/ with a scalar of main.cpp (line 35). -/
def divP (a : V3) (s : ℝ) : V3 := ⟨a.x / s, a.y / s, a.z / s⟩

/-- normalize (main.cpp lines 66-70): the zero vector below EPS
magnitude, the scaled vector otherwise. -/
def normalize (p : V3) : V3 :=
  if magnitude p < EPSR then ⟨0, 0, 0⟩ else divP p (magnitude p)

/-- Clamp into [-1, 1] (main.cpp lines 77, 86, 121, 139, 199). -/
def clampD (d : ℝ) : ℝ := max (-1) (min 1 d)

/-- dist_xyz (main.cpp lines 73-80): great-circle distance through the
clamped arccos of the dot of the normalised points. -/
def dist_xyz (p1 p2 : V3) : ℝ :=
  Real.arccos (clampD (dot (normalize p1) (normalize p2))) * R_earth

/-- point_at_angle_on_great_circle (main.cpp lines 83-95). -/
def point_at_angle_on_great_circle (u v : V3) (angle_from_u : ℝ) : V3 :=
  let u_norm := normalize u
  let v_norm := normalize v
  let angle_uv := Real.arccos (clampD (dot u_norm v_norm))
  if angle_uv < EPSR then u
  else
    let v_ortho := normalize (subP v_norm (smul u_norm (dot u_norm v_norm)))
    addP (smul u_norm (Real.cos angle_from_u)) (smul v_ortho (Real.sin angle_from_u))

/-- is_on_arc (main.cpp lines 99-105), with the C bool modelled as a
proposition. -/
def is_on_arc (u v p : V3) : Prop :=
  |dist_xyz u p + dist_xyz p v - dist_xyz u v| < EPSR

/-- get_arc_parameter (main.cpp lines 108-113). -/
def get_arc_parameter (u v p : V3) : ℝ :=
  if dist_xyz u v < EPSR then 0 else dist_xyz u p / dist_xyz u v

/-- Scaling of a unit direction back to the Earth sphere (main.cpp lines
154-156 and 208-209). -/
def scaleEarth (p : V3) : V3 := ⟨p.x * R_earth, p.y * R_earth, p.z * R_earth⟩

/-- Conditioning of cos_beta_arg before acos in main.cpp (lines
135-140): the value is clamped into [-1, 1] only when it lies outside
[-1 - EPS, 1 + EPS]; values inside that band are passed through
unchanged, including the out-of-domain slivers (1, 1 + EPS] and
[-1 - EPS, -1). -/
def clampCosBetaArg {α : Type*} [LinearOrderedField α] (x : α) : α :=
  if x > 1 + 1 / 10 ^ 9 ∨ x < -1 - 1 / 10 ^ 9 then max (-1) (min 1 x) else x

/-- Angular distance of the two circle centers (main.cpp line 121). -/
def d_angOf (c1 c2 : V3) : ℝ :=
  Real.arccos (clampD (dot (normalize c1) (normalize c2)))

/-- Angle beta of main.cpp lines 135-141, through the conditional
clamp. -/
def betaOf (c1 c2 : V3) (R_sphere : ℝ) : ℝ :=
  Real.arccos (clampCosBetaArg
    (Real.cos (R_sphere / R_earth) / Real.cos (d_angOf c1 c2 / 2)))

/-- get_small_circle_intersections (main.cpp lines 117-160). -/
def get_small_circle_intersections (center1 center2 : V3) (R_sphere : ℝ) :
    List V3 :=
  let d_ang := d_angOf center1 center2
  if d_ang > 2 * (R_sphere / R_earth) + EPSR then []
  else if d_ang < EPSR then []
  else
    let beta := betaOf center1 center2 R_sphere
    let m_norm := point_at_angle_on_great_circle (normalize center1)
      (normalize center2) (d_ang / 2)
    let ortho := normalize (cross m_norm (subP (normalize center1) (normalize center2)))
    let p1 := addP (smul m_norm (Real.cos beta)) (smul ortho (Real.sin beta))
    let p2 := subP (smul m_norm (Real.cos beta)) (smul ortho (Real.sin beta))
    scaleEarth p1 :: (if beta > EPSR then [scaleEarth p2] else [])

/-- std::unique with the within-EPS predicate (main.cpp line 248):
drops every element within EPS of the last kept element. -/
def uniqGo (a : ℝ) : List ℝ → List ℝ
  | [] => []
  | b :: rest => if |a - b| < EPSR then uniqGo a rest else b :: uniqGo b rest

/-- Head step of the unique pass (main.cpp lines 247-248). -/
def uniqueEps : List ℝ → List ℝ
  | [] => []
  | a :: rest => a :: uniqGo a rest

/-- Interval assembly over consecutive critical parameters (main.cpp
lines 250-264): keep [t_start, t_end] when its width is at least EPS
and the arc midpoint lies inside the disk. -/
def segsOf (u v kc : V3) (R_sphere angle_uv : ℝ) : List ℝ → List (ℝ × ℝ)
  | [] => []
  | [_] => []
  | a :: b :: rest =>
    (if b - a < EPSR then []
     else if dist_xyz (point_at_angle_on_great_circle u v ((a + b) / 2 * angle_uv))
         kc ≤ R_sphere + EPSR then [(a, b)]
     else []) ++
      segsOf u v kc R_sphere angle_uv (b :: rest)

/-- Sort, unique and assembly of the critical parameters (main.cpp
lines 247-264). -/
def buildIntervals (u v kc : V3) (R_sphere angle_uv : ℝ) (params : List ℝ) :
    List (ℝ × ℝ) :=
  segsOf u v kc R_sphere angle_uv
    (uniqueEps (params.mergeSort (fun a b => decide (a ≤ b))))

/-- Midpoint fallback of main.cpp (lines 219-232 and 234-244): the arc
is entirely inside or entirely outside the disk. -/
def midFull (u v kc : V3) (R_sphere angle_uv : ℝ) : List (ℝ × ℝ) :=
  if dist_xyz (point_at_angle_on_great_circle u v (angle_uv / 2)) kc ≤
      R_sphere + EPSR then [(0, 1)] else []

/-- get_covered_intervals (main.cpp lines 164-267). -/
def get_covered_intervals (u v k_center : V3) (R_sphere : ℝ) :
    List (ℝ × ℝ) :=
  let r_ang := R_sphere / R_earth
  let u_norm := normalize u
  let v_norm := normalize v
  let k_norm := normalize k_center
  let angle_uv := Real.arccos (clampD (dot u_norm v_norm))
  if angle_uv < EPSR then
    if dist_xyz u k_center ≤ R_sphere + EPSR then [(0, 1)] else []
  else
    let gc_normal := normalize (cross u_norm v_norm)
    let k_proj_norm := normalize (subP k_norm (smul gc_normal (dot k_norm gc_normal)))
    let d_k := Real.arccos (clampD |dot k_norm gc_normal|)
    if d_k ≤ r_ang + EPSR then
      if |d_k - r_ang| < EPSR then
        buildIntervals u v k_center R_sphere angle_uv [0, 1]
      else
        let cos_alpha_arg := Real.cos r_ang / Real.cos d_k
        if -1 - EPSR ≤ cos_alpha_arg ∧ cos_alpha_arg ≤ 1 + EPSR then
          let alp := Real.arccos (clampD cos_alpha_arg)
          let ortho_k := normalize (cross gc_normal k_proj_norm)
          let p1 := scaleEarth (addP (smul k_proj_norm (Real.cos alp))
            (smul ortho_k (Real.sin alp)))
          let p2 := scaleEarth (subP (smul k_proj_norm (Real.cos alp))
            (smul ortho_k (Real.sin alp)))
          buildIntervals u v k_center R_sphere angle_uv
            ([0, 1] ++ (if is_on_arc u v p1 then [get_arc_parameter u v p1] else [])
              ++ (if alp > EPSR ∧ is_on_arc u v p2 then [get_arc_parameter u v p2] else []))
        else midFull u v k_center R_sphere angle_uv
    else midFull u v k_center R_sphere angle_uv

/-- Merge step of main.cpp (lines 274-285): absorb the next interval
when it starts within EPS of the current end. -/
def mergeGo : (ℝ × ℝ) → List (ℝ × ℝ) → List (ℝ × ℝ)
  | cur, [] => [cur]
  | cur, iv :: rest =>
    if iv.1 ≤ cur.2 + EPSR then mergeGo (cur.1, max cur.2 iv.2) rest
    else cur :: mergeGo iv rest

/-- merge_intervals (main.cpp lines 271-286): lexicographic sort, then
the sweep merge. -/
def merge_intervals (l : List (ℝ × ℝ)) : List (ℝ × ℝ) :=
  match l.mergeSort (fun a b => decide (a.1 < b.1 ∨ (a.1 = b.1 ∧ a.2 ≤ b.2))) with
  | [] => []
  | iv :: rest => mergeGo iv rest

/-- Final gap check of is_arc_safe (main.cpp lines 304-309). -/
def coverFrom (cur : ℝ) : List (ℝ × ℝ) → Prop
  | [] => ¬ cur < 1 - EPSR
  | iv :: rest => if iv.1 > cur + EPSR then False else coverFrom (max cur iv.2) rest

/-- is_arc_safe (main.cpp lines 289-312): zero-length arcs are safe
unconditionally; otherwise gather per-airport coverage, merge, and
check that [0, 1] is covered without gap. -/
def is_arc_safe (u v : V3) (airports : List V3) (R_sphere : ℝ) : Prop :=
  if dist_xyz u v < EPSR then True
  else
    match merge_intervals
        ((airports.map fun a => get_covered_intervals u v a R_sphere).flatten) with
    | [] => False
    | iv :: rest => coverFrom 0 (iv :: rest)

/-- Adjacency entry for one vertex pair of main.cpp (lines 364-386).
The antipodal special case of the source (lines 371-378) performs the
same is_arc_safe call as the general branch, so both collapse here. -/
def adjEntry (vi vj : V3) (airports : List V3) (R : ℝ) : WithTop ℝ :=
  let d := dist_xyz vi vj
  if d < EPSR then (d : WithTop ℝ)
  else if is_arc_safe vi vj airports R then (d : WithTop ℝ) else ⊤

/-- Approximate-order comparator Point::Compare of main.cpp (lines
21-27). -/
def ltPoint (a b : V3) : Prop :=
  if |a.x - b.x| > EPSR then a.x < b.x
  else if |a.y - b.y| > EPSR then a.y < b.y
  else a.z < b.z - EPSR

/-- Comparator equivalence: neither point precedes the other. -/
def eqvPoint (a b : V3) : Prop := ¬ ltPoint a b ∧ ¬ ltPoint b a

/-- Positions agreeing within the small epsilon, componentwise. -/
def closePos (a b : V3) : Prop :=
  |a.x - b.x| ≤ EPSR ∧ |a.y - b.y| ≤ EPSR ∧ |a.z - b.z| ≤ EPSR

/-- Set insertion of main.cpp (lines 331-342), under the specified
std::set semantics for an ordering comparator: the point is inserted
exactly when no comparator-equivalent member is present. -/
def insertUnique (s : List V3) (p : V3) : List V3 :=
  if ∃ q ∈ s, eqvPoint p q then s else s ++ [p]

/-- Augmented vertex set of main.cpp: all airports and intersection
candidates inserted into the comparator-keyed set. -/
def buildVertexSet (ps : List V3) : List V3 := ps.foldl insertUnique []

end MCpp

end Geometry

namespace MC

section SweepThms

variable {α : Type*} [LinearOrderedField α]

theorem innerScan_snd_length (reach best : α) (l : List (α × α)) :
    (innerScan reach best l).2.length ≤ l.length := by
  induction l generalizing best with
  | nil => simp [innerScan]
  | cons p rest ih =>
    obtain ⟨s, e⟩ := p
    by_cases h : s ≤ reach + tol12
    · simp only [innerScan, if_pos h]
      exact le_trans (ih (max best e)) (Nat.le_succ _)
    · simp [innerScan, if_neg h]

theorem le_specReach (r : α) (l : List (α × α)) : r ≤ specReach r l := by
  induction l generalizing r with
  | nil => simp [specReach]
  | cons p rest ih =>
    simp only [specReach, List.foldl_cons]
    by_cases h : p.1 ≤ r + tol12
    · rw [if_pos h]; exact le_trans (le_max_left _ _) (ih (max r p.2))
    · rw [if_neg h]; exact ih r

theorem specReach_skip (r : α) (l : List (α × α))
    (h : ∀ p ∈ l, r + tol12 < p.1) : specReach r l = r := by
  induction l with
  | nil => rfl
  | cons p rest ih =>
    simp only [specReach, List.foldl_cons]
    rw [if_neg (not_le.mpr (h p (List.mem_cons_self _ _)))]
    exact ih fun q hq => h q (List.mem_cons_of_mem _ hq)

theorem innerScan_specReach (l : List (α × α)) (reach b : α) (hb : reach ≤ b) :
    specReach b l = specReach (innerScan reach b l).1 (innerScan reach b l).2 ∧
      b ≤ (innerScan reach b l).1 := by
  induction l generalizing b with
  | nil => exact ⟨by simp [innerScan], by simp [innerScan]⟩
  | cons p rest ih =>
    obtain ⟨s, e⟩ := p
    by_cases h : s ≤ reach + tol12
    · have hb2 : reach ≤ max b e := le_trans hb (le_max_left _ _)
      have hstep : specReach b ((s, e) :: rest) = specReach (max b e) rest := by
        simp only [specReach, List.foldl_cons]
        rw [if_pos (le_trans h (by simpa using hb))]
      obtain ⟨h1, h2⟩ := ih (max b e) hb2
      refine ⟨?_, ?_⟩
      · rw [hstep, h1]; simp only [innerScan, if_pos h]
      · simp only [innerScan, if_pos h]
        exact le_trans (le_max_left _ _) h2
    · exact ⟨by simp [innerScan, if_neg h], by simp [innerScan, if_neg h]⟩

theorem innerScan_pairwise {R : α × α → α × α → Prop} (reach b : α)
    (l : List (α × α)) (h : l.Pairwise R) :
    (innerScan reach b l).2.Pairwise R := by
  induction l generalizing b with
  | nil => simp [innerScan]
  | cons p rest ih =>
    obtain ⟨s, e⟩ := p
    by_cases hc : s ≤ reach + tol12
    · simp only [innerScan, if_pos hc]
      exact ih (max b e) (List.Pairwise.of_cons h)
    · simpa [innerScan, if_neg hc] using h

/-- Key refinement lemma for C1: on a list sorted by interval start, the
break-early double-while sweep of main.c reaches theta - tolerance if
and only if the one-pass fold described by the spec does. -/
theorem sweepGo_iff_specReach (th : α) :
    ∀ (n : ℕ) (l : List (α × α)), l.length ≤ n →
      l.Pairwise (fun a b => a.1 ≤ b.1) →
      ∀ r : α, (th - tol12 ≤ sweepGo l r th ↔ th - tol12 ≤ specReach r l) := by
  intro n
  induction n with
  | zero =>
    intro l hl _ r
    rw [List.length_eq_zero.mp (Nat.le_zero.mp hl)]
    simp [sweepGo, specReach]
  | succ n ih =>
    intro l hl hsort r
    match l with
    | [] => simp [sweepGo, specReach]
    | (s, e) :: rest =>
      by_cases h : s ≤ r + tol12
      · have hb : r ≤ max r e := le_max_left _ _
        obtain ⟨h1, h2⟩ := innerScan_specReach rest r (max r e) hb
        have hspec : specReach r ((s, e) :: rest) = specReach (max r e) rest := by
          simp only [specReach, List.foldl_cons]; rw [if_pos h]
        set p := innerScan r (max r e) rest with hp
        by_cases hbr : th - tol12 ≤ p.1
        · have : th - tol12 ≤ specReach r ((s, e) :: rest) := by
            rw [hspec, h1]
            exact le_trans hbr (le_specReach _ _)
          simp only [sweepGo, if_pos h]
          rw [if_pos hbr]
          exact ⟨fun _ => this, fun _ => hbr⟩
        · have hlen : p.2.length ≤ n := by
            have h1l : p.2.length ≤ rest.length := innerScan_snd_length _ _ _
            have h2l : rest.length + 1 ≤ n + 1 := by simpa using hl
            omega
          have hsort2 : p.2.Pairwise (fun a b => a.1 ≤ b.1) :=
            innerScan_pairwise _ _ _ (List.Pairwise.of_cons hsort)
          have := ih p.2 hlen hsort2 p.1
          simp only [sweepGo, if_pos h]
          rw [if_neg hbr]
          rw [this, hspec, h1]
      · have hall : ∀ q ∈ (s, e) :: rest, r + tol12 < q.1 := by
          intro q hq
          rcases List.mem_cons.mp hq with hq | hq
          · subst hq; exact not_le.mp h
          · have hs : s ≤ q.1 := (List.pairwise_cons.mp hsort).1 q hq
            exact lt_of_lt_of_le (not_le.mp h) hs
        rw [specReach_skip r _ hall]
        simp [sweepGo, if_neg h]

theorem sortIvs_pairwise (l : List (α × α)) :
    (sortIvs l).Pairwise (fun a b => a.1 ≤ b.1) := by
  have h := @List.sorted_mergeSort (α × α) (fun a b => decide (a.1 ≤ b.1))
    (fun a b c h1 h2 => by
      simp only [decide_eq_true_eq] at *
      exact le_trans h1 h2)
    (fun a b => by
      simp only [Bool.or_eq_true, decide_eq_true_eq]
      exact le_total a.1 b.1) l
  exact h.imp (by simp)

theorem sortIvs_eq_nil_iff (l : List (α × α)) : sortIvs l = [] ↔ l = [] := by
  constructor
  · intro h
    have := List.mergeSort_perm l (fun a b : α × α => decide (a.1 ≤ b.1))
    rw [sortIvs] at h
    rw [h] at this
    exact (List.Perm.nil_eq this).symm
  · intro h; subst h; simp [sortIvs]

end SweepThms

/-- C1, amended: for a vertex pair at angular separation at least the
tolerance 1e-12 (and at most 4 radians, so that the edge weight is below
the INF sentinel), main.c gives the pair the direct edge weight
theta_ab * 6370 exactly when the per-disk coverage intervals, sorted and
sweep-merged, reach theta_ab - tolerance starting from 0, and the
sentinel INF (no direct edge) otherwise.  Pairs with positive separation
below 1e-12 are skipped unconditionally, which refutes the claim as
stated for them. -/
theorem c1_edge_iff_sweep_covered (th : ℚ) (ivs : List (ℚ × ℚ))
    (h1 : tol12 ≤ th) (h2 : th ≤ 4) :
    (edgeWeightC th ivs = th * 6370 ↔ specCovered th ivs) ∧
      (¬ specCovered th ivs → edgeWeightC th ivs = INFC) := by
  have hne : (INFC : ℚ) ≠ th * 6370 := by
    have hle : th * 6370 ≤ 4 * 6370 := by nlinarith
    have : (4 : ℚ) * 6370 < INFC := by norm_num [INFC]
    exact ne_of_gt (lt_of_le_of_lt hle this)
  have hnlt : ¬ th < tol12 := not_lt.mpr h1
  by_cases hnil : ivs = []
  · subst hnil
    constructor
    · simp only [edgeWeightC, if_neg hnlt, if_pos rfl]
      constructor
      · intro h; exact absurd h hne
      · intro h; exact absurd rfl h.1
    · intro _; simp [edgeWeightC, if_neg hnlt]
  · have hkey := sweepGo_iff_specReach th (sortIvs ivs).length (sortIvs ivs)
      le_rfl (sortIvs_pairwise ivs) 0
    by_cases hcov : th - tol12 ≤ sweepGo (sortIvs ivs) 0 th
    · have hspec : specCovered th ivs := ⟨hnil, hkey.mp hcov⟩
      have hval : edgeWeightC th ivs = th * 6370 := by
        simp only [edgeWeightC, if_neg hnlt, if_neg hnil, ge_iff_le,
          if_pos hcov]
      constructor
      · rw [hval]
        exact iff_of_true rfl hspec
      · intro h; exact absurd hspec h
    · have hspec : ¬ specCovered th ivs := by
        intro h
        exact hcov (hkey.mpr h.2)
      have hval : edgeWeightC th ivs = INFC := by
        simp only [edgeWeightC, if_neg hnlt, if_neg hnil, ge_iff_le,
          if_neg hcov]
      constructor
      · rw [hval]
        constructor
        · intro h; exact absurd h hne
        · intro h; exact absurd h hspec
      · intro _; exact hval

/-- C1, counterexample to the claim as stated: at angular separation
theta_ab = 1e-13 (positive, but below the 1e-12 skip threshold) with a
single interval covering the whole range, the sweep condition of the
claim holds, yet main.c assigns no direct edge (INF) instead of the
claimed weight theta_ab * 6370. -/
theorem c1_cex :
    (0 : ℚ) < 1 / 10 ^ 13 ∧
      specCovered ((1 : ℚ) / 10 ^ 13) [((0 : ℚ), 1 / 10 ^ 13)] ∧
      edgeWeightC ((1 : ℚ) / 10 ^ 13) [((0 : ℚ), 1 / 10 ^ 13)] = INFC ∧
      INFC ≠ ((1 : ℚ) / 10 ^ 13) * 6370 := by
  refine ⟨by norm_num, ⟨by simp, ?_⟩, ?_, by norm_num [INFC]⟩
  · show ((1 : ℚ) / 10 ^ 13) - tol12 ≤ _
    have hs : sortIvs [((0 : ℚ), 1 / 10 ^ 13)] = [((0 : ℚ), 1 / 10 ^ 13)] := by
      simp [sortIvs]
    rw [hs]
    simp only [specReach, List.foldl_cons, List.foldl_nil]
    norm_num [tol12]
  · simp only [edgeWeightC]
    rw [if_pos (by norm_num [tol12])]

/-- C1, witness for the amended theorem at theta_ab = 1 with the single
interval [0, 1]. -/
theorem c1_witness :
    (tol12 ≤ (1 : ℚ)) ∧ ((1 : ℚ) ≤ 4) ∧
      ((edgeWeightC (1 : ℚ) [((0 : ℚ), 1)] = 1 * 6370 ↔
          specCovered (1 : ℚ) [((0 : ℚ), 1)]) ∧
        (¬ specCovered (1 : ℚ) [((0 : ℚ), 1)] →
          edgeWeightC (1 : ℚ) [((0 : ℚ), 1)] = INFC)) :=
  ⟨by norm_num [tol12], by norm_num,
    c1_edge_iff_sweep_covered 1 [((0 : ℚ), 1)] (by norm_num [tol12])
      (by norm_num)⟩

end MC

namespace MCpp

theorem relaxVal_eq_min {n : ℕ} (M : Mat n) (k i j : Fin n) :
    relaxVal M k i j = min (M i j) (M i k + M k j) := by
  unfold relaxVal
  by_cases h1 : M i k = ⊤
  · rw [if_neg (by simp [h1]), h1, WithTop.top_add]
    exact (min_eq_left le_top).symm
  · by_cases h2 : M k j = ⊤
    · rw [if_neg (by simp [h2]), h2, WithTop.add_top]
      exact (min_eq_left le_top).symm
    · rw [if_pos ⟨h1, h2⟩]

theorem setEntry_same {n : ℕ} (M : Mat n) (i j : Fin n) (x : QW) :
    setEntry M i j x i j = x := by simp [setEntry]

theorem setEntry_ne {n : ℕ} (M : Mat n) (i j a b : Fin n) (x : QW)
    (h : ¬ (a = i ∧ b = j)) : setEntry M i j x a b = M a b := by
  simp [setEntry, h]

theorem relaxVal_row_id {n : ℕ} (M : Mat n) (k i : Fin n) (hkk : M k k = 0) :
    relaxVal M k i k = M i k := by
  rw [relaxVal_eq_min, hkk, add_zero, min_self]

theorem relaxVal_col_id {n : ℕ} (M : Mat n) (k j : Fin n) (hkk : M k k = 0) :
    relaxVal M k k j = M k j := by
  rw [relaxVal_eq_min, hkk, zero_add, min_self]

theorem relaxVal_kk {n : ℕ} (M : Mat n) (k : Fin n) (hkk : M k k = 0) :
    relaxVal M k k k = 0 := by
  rw [relaxVal_eq_min, hkk, add_zero, min_self]

theorem fwJ_eq {n : ℕ} (k i : Fin n) :
    ∀ (js : List (Fin n)) (M : Mat n), M k k = 0 → js.Nodup →
      fwJ M k i js =
        fun a b => if a = i ∧ b ∈ js then relaxVal M k i b else M a b := by
  intro js
  induction js with
  | nil => intro M _ _; funext a b; simp [fwJ]
  | cons j js ih =>
    intro M hkk hnd
    have hjnotin : j ∉ js := (List.nodup_cons.mp hnd).1
    have hnd2 : js.Nodup := (List.nodup_cons.mp hnd).2
    set M1 := setEntry M i j (relaxVal M k i j) with hM1
    have hM1kk : M1 k k = 0 := by
      by_cases hc : k = i ∧ k = j
      · obtain ⟨h1, h2⟩ := hc
        rw [hM1]
        subst h1
        subst h2
        rw [setEntry_same]
        exact relaxVal_kk M k hkk
      · rw [hM1, setEntry_ne M i j k k _ hc, hkk]
    have step : fwJ M k i (j :: js) = fwJ M1 k i js := rfl
    rw [step, ih M1 hM1kk hnd2]
    funext a b
    by_cases hab : a = i ∧ b ∈ js
    · have hbj : b ≠ j := fun h => hjnotin (h ▸ hab.2)
      rw [if_pos hab, if_pos ⟨hab.1, List.mem_cons_of_mem _ hab.2⟩]
      have e1 : M1 i b = M i b := setEntry_ne _ _ _ _ _ _ (by tauto)
      have e2 : M1 i k = M i k := by
        by_cases hkj : k = j
        · subst hkj
          rw [hM1, setEntry_same]
          exact relaxVal_row_id M k i hkk
        · exact setEntry_ne _ _ _ _ _ _ (by tauto)
      have e3 : M1 k b = M k b := by
        by_cases hki : k = i
        · subst hki
          by_cases hbj2 : b = j
          · exact absurd hbj2 hbj
          · exact setEntry_ne _ _ _ _ _ _ (by tauto)
        · exact setEntry_ne _ _ _ _ _ _ (by tauto)
      rw [relaxVal_eq_min, relaxVal_eq_min, e1, e2, e3]
    · rw [if_neg hab]
      by_cases hab2 : a = i ∧ b = j
      · obtain ⟨h1, h2⟩ := hab2
        subst h1; subst h2
        rw [if_pos ⟨rfl, List.mem_cons_self _ _⟩]
        exact setEntry_same _ _ _ _
      · have : ¬ (a = i ∧ b ∈ j :: js) := by
          intro hc
          rcases List.mem_cons.mp hc.2 with h | h
          · exact hab2 ⟨hc.1, h⟩
          · exact hab ⟨hc.1, h⟩
        rw [if_neg this]
        exact setEntry_ne _ _ _ _ _ _ hab2

theorem fwJ_row {n : ℕ} (M : Mat n) (k i : Fin n) (hkk : M k k = 0) :
    fwJ M k i (List.finRange n) = fun a b =>
      if a = i then relaxVal M k i b else M a b := by
  rw [fwJ_eq k i (List.finRange n) M hkk (List.nodup_finRange n)]
  funext a b
  simp [List.mem_finRange]

theorem fwI_eq {n : ℕ} (k : Fin n) :
    ∀ (is2 : List (Fin n)) (M : Mat n), M k k = 0 → is2.Nodup →
      fwI M k is2 =
        fun a b => if a ∈ is2 then relaxVal M k a b else M a b := by
  intro is2
  induction is2 with
  | nil => intro M _ _; funext a b; simp [fwI]
  | cons i is2 ih =>
    intro M hkk hnd
    have hinotin : i ∉ is2 := (List.nodup_cons.mp hnd).1
    have hnd2 : is2.Nodup := (List.nodup_cons.mp hnd).2
    set M1 := fwJ M k i (List.finRange n) with hM1
    have hrow : M1 = fun a b => if a = i then relaxVal M k i b else M a b :=
      fwJ_row M k i hkk
    have hM1kk : M1 k k = 0 := by
      simp only [hrow]
      by_cases hki : k = i
      · rw [if_pos hki]
        subst hki
        exact relaxVal_kk M k hkk
      · rw [if_neg hki, hkk]
    have step : fwI M k (i :: is2) = fwI M1 k is2 := rfl
    rw [step, ih M1 hM1kk hnd2]
    funext a b
    by_cases hmem : a ∈ is2
    · have hai : a ≠ i := fun h => hinotin (h ▸ hmem)
      rw [if_pos hmem, if_pos (List.mem_cons_of_mem _ hmem)]
      have e1 : M1 a b = M a b := by simp only [hrow]; simp [hai]
      have e2 : M1 a k = M a k := by simp only [hrow]; simp [hai]
      have e3 : M1 k b = M k b := by
        simp only [hrow]
        by_cases hki : k = i
        · rw [if_pos hki]
          subst hki
          exact relaxVal_col_id M k b hkk
        · rw [if_neg hki]
      rw [relaxVal_eq_min, relaxVal_eq_min, e1, e2, e3]
    · rw [if_neg hmem]
      by_cases hai : a = i
      · subst hai
        rw [if_pos (List.mem_cons_self _ _)]
        simp only [hrow]
        simp
      · have : a ∉ i :: is2 := by
          intro hc
          rcases List.mem_cons.mp hc with h | h
          · exact hai h
          · exact hmem h
        rw [if_neg this, hrow]
        simp [hai]

/-- Bridge for one round: given a zero (k, k) entry, the in-place double
loop for intermediate vertex k acts as the functional relaxation of all
entries through k at the round-start matrix. -/
theorem fwRound_eq {n : ℕ} (M : Mat n) (k : Fin n) (hkk : M k k = 0) :
    fwI M k (List.finRange n) = funRound M k := by
  rw [fwI_eq k (List.finRange n) M hkk (List.nodup_finRange n)]
  funext a b
  simp only [List.mem_finRange, if_true]
  rw [relaxVal_eq_min]
  rfl

end MCpp

namespace MCpp

theorem funRound_diag0 {n : ℕ} {M : Mat n} (hd : Diag0 M) (hn : Nonneg M)
    (k : Fin n) : Diag0 (funRound M k) := by
  intro i
  unfold funRound
  rw [hd i]
  exact min_eq_left (add_nonneg (hn i k) (hn k i))

theorem funRound_nonneg {n : ℕ} {M : Mat n} (hn : Nonneg M) (k : Fin n) :
    Nonneg (funRound M k) := by
  intro i j
  exact le_min (hn i j) (add_nonneg (hn i k) (hn k j))

theorem funRound_symm {n : ℕ} {M : Mat n} (hs : Symm M) (k : Fin n) :
    Symm (funRound M k) := by
  intro i j
  unfold funRound
  rw [hs i j, hs i k, hs k j, add_comm (M k i) (M j k)]

theorem funRound_tri_self {n : ℕ} {M : Mat n} (hd : Diag0 M) (k : Fin n) :
    ∀ i j, funRound M k i j ≤ funRound M k i k + funRound M k k j := by
  intro i j
  have h1 : funRound M k i k = M i k := by
    unfold funRound; rw [hd k, add_zero, min_self]
  have h2 : funRound M k k j = M k j := by
    unfold funRound; rw [hd k, zero_add, min_self]
  rw [h1, h2]
  exact min_le_right _ _

theorem funRound_tri_preserve {n : ℕ} {M : Mat n} (hn : Nonneg M) (m : Fin n)
    (htri : ∀ i j, M i j ≤ M i m + M m j) (k : Fin n) :
    ∀ i j, funRound M k i j ≤ funRound M k i m + funRound M k m j := by
  intro i j
  show min (M i j) (M i k + M k j) ≤
    min (M i m) (M i k + M k m) + min (M m j) (M m k + M k j)
  rcases min_cases (M i m) (M i k + M k m) with ⟨h1, _⟩ | ⟨h1, _⟩ <;>
    rcases min_cases (M m j) (M m k + M k j) with ⟨h2, _⟩ | ⟨h2, _⟩ <;>
    rw [h1, h2]
  · exact le_trans (min_le_left _ _) (htri i j)
  · calc min (M i j) (M i k + M k j) ≤ M i k + M k j := min_le_right _ _
      _ ≤ (M i m + M m k) + M k j := add_le_add_right (htri i k) _
      _ = M i m + (M m k + M k j) := add_assoc _ _ _
  · calc min (M i j) (M i k + M k j) ≤ M i k + M k j := min_le_right _ _
      _ ≤ M i k + (M k m + M m j) := add_le_add_left (htri k j) _
      _ = (M i k + M k m) + M m j := (add_assoc _ _ _).symm
  · calc min (M i j) (M i k + M k j) ≤ M i k + M k j := min_le_right _ _
      _ ≤ M i k + (M k m + (M m k + M k j)) := by
          refine add_le_add_left ?_ _
          exact le_trans (le_add_of_nonneg_left (hn m k))
            (le_add_of_nonneg_left (hn k m))
      _ = (M i k + M k m) + (M m k + M k j) := (add_assoc _ _ _).symm

end MCpp

namespace MCpp

theorem roundsF_diag0_nonneg {n : ℕ} :
    ∀ (ks : List (Fin n)) (M : Mat n), Diag0 M → Nonneg M →
      Diag0 (roundsF M ks) ∧ Nonneg (roundsF M ks) := by
  intro ks
  induction ks with
  | nil => intro M hd hn; exact ⟨hd, hn⟩
  | cons k ks ih =>
    intro M hd hn
    exact ih (funRound M k) (funRound_diag0 hd hn k) (funRound_nonneg hn k)

theorem roundsF_symm {n : ℕ} :
    ∀ (ks : List (Fin n)) (M : Mat n), Symm M → Symm (roundsF M ks) := by
  intro ks
  induction ks with
  | nil => intro M hs; exact hs
  | cons k ks ih => intro M hs; exact ih (funRound M k) (funRound_symm hs k)

theorem roundsF_tri {n : ℕ} :
    ∀ (ks : List (Fin n)) (M : Mat n), Diag0 M → Nonneg M →
      ∀ (done : List (Fin n)),
        (∀ m ∈ done, ∀ i j, M i j ≤ M i m + M m j) →
        ∀ m ∈ done ++ ks, ∀ i j,
          roundsF M ks i j ≤ roundsF M ks i m + roundsF M ks m j := by
  intro ks
  induction ks with
  | nil =>
    intro M _ _ done hdone m hm
    rw [List.append_nil] at hm
    exact hdone m hm
  | cons k ks ih =>
    intro M hd hn done hdone m hm
    have hd2 := funRound_diag0 hd hn k
    have hn2 := funRound_nonneg hn k
    have hdone2 : ∀ m2 ∈ done ++ [k], ∀ i j,
        funRound M k i j ≤ funRound M k i m2 + funRound M k m2 j := by
      intro m2 hm2
      rcases List.mem_append.mp hm2 with h | h
      · exact funRound_tri_preserve hn m2 (hdone m2 h) k
      · rw [List.mem_singleton.mp h]
        exact funRound_tri_self hd k
    have hm2 : m ∈ (done ++ [k]) ++ ks := by
      rcases List.mem_append.mp hm with h | h
      · exact List.mem_append.mpr (Or.inl (List.mem_append.mpr (Or.inl h)))
      · rcases List.mem_cons.mp h with h | h
        · exact List.mem_append.mpr
            (Or.inl (List.mem_append.mpr (Or.inr (by simp [h]))))
        · exact List.mem_append.mpr (Or.inr h)
    exact ih (funRound M k) hd2 hn2 (done ++ [k]) hdone2 m hm2

theorem fwK_eq_roundsF {n : ℕ} :
    ∀ (ks : List (Fin n)) (M : Mat n), Diag0 M → Nonneg M →
      fwK M ks = roundsF M ks := by
  intro ks
  induction ks with
  | nil => intro M _ _; rfl
  | cons k ks ih =>
    intro M hd hn
    have step : fwK M (k :: ks) = fwK (fwI M k (List.finRange n)) ks := rfl
    rw [step, fwRound_eq M k (hd k)]
    exact ih (funRound M k) (funRound_diag0 hd hn k) (funRound_nonneg hn k)

/-- Bridge: given a symmetric start the in-place main.cpp pass is the
iterated functional relaxation. -/
theorem floydWarshall_eq_roundsF {n : ℕ} (M : Mat n) (hd : Diag0 M)
    (hn : Nonneg M) :
    floydWarshall M = roundsF M (List.finRange n) :=
  fwK_eq_roundsF (List.finRange n) M hd hn

theorem floydWarshall_diag0 {n : ℕ} (M : Mat n) (hd : Diag0 M)
    (hn : Nonneg M) : Diag0 (floydWarshall M) := by
  rw [floydWarshall_eq_roundsF M hd hn]
  exact (roundsF_diag0_nonneg _ M hd hn).1

theorem floydWarshall_nonneg {n : ℕ} (M : Mat n) (hd : Diag0 M)
    (hn : Nonneg M) : Nonneg (floydWarshall M) := by
  rw [floydWarshall_eq_roundsF M hd hn]
  exact (roundsF_diag0_nonneg _ M hd hn).2

theorem floydWarshall_symm {n : ℕ} (M : Mat n) (hd : Diag0 M)
    (hn : Nonneg M) (hs : Symm M) : Symm (floydWarshall M) := by
  rw [floydWarshall_eq_roundsF M hd hn]
  exact roundsF_symm _ M hs

theorem floydWarshall_tri {n : ℕ} (M : Mat n) (hd : Diag0 M)
    (hn : Nonneg M) : ∀ k i j,
      floydWarshall M i j ≤ floydWarshall M i k + floydWarshall M k j := by
  intro k i j
  rw [floydWarshall_eq_roundsF M hd hn]
  exact roundsF_tri (List.finRange n) M hd hn [] (by simp) k
    (by simp [List.mem_finRange]) i j

end MCpp

namespace MCpp

theorem relaxVal_le {n : ℕ} (M : Mat n) (k i j : Fin n) :
    relaxVal M k i j ≤ M i j := by
  rw [relaxVal_eq_min]
  exact min_le_left _ _

theorem fwJ_le {n : ℕ} (k i : Fin n) :
    ∀ (js : List (Fin n)) (M : Mat n), MatLE (fwJ M k i js) M := by
  intro js
  induction js with
  | nil => intro M a b; exact le_refl _
  | cons j js ih =>
    intro M a b
    have h1 : MatLE (setEntry M i j (relaxVal M k i j)) M := by
      intro a2 b2
      by_cases hc : a2 = i ∧ b2 = j
      · obtain ⟨h1, h2⟩ := hc
        subst h1; subst h2
        rw [setEntry_same]
        exact relaxVal_le M k _ _
      · rw [setEntry_ne _ _ _ _ _ _ hc]
    exact le_trans (ih (setEntry M i j (relaxVal M k i j)) a b) (h1 a b)

theorem fwI_le {n : ℕ} (k : Fin n) :
    ∀ (is2 : List (Fin n)) (M : Mat n), MatLE (fwI M k is2) M := by
  intro is2
  induction is2 with
  | nil => intro M a b; exact le_refl _
  | cons i is2 ih =>
    intro M a b
    exact le_trans (ih (fwJ M k i (List.finRange n)) a b) (fwJ_le k i _ M a b)

theorem fwK_le {n : ℕ} :
    ∀ (ks : List (Fin n)) (M : Mat n), MatLE (fwK M ks) M := by
  intro ks
  induction ks with
  | nil => intro M a b; exact le_refl _
  | cons k ks ih =>
    intro M a b
    exact le_trans (ih (fwI M k (List.finRange n)) a b) (fwI_le k _ M a b)

theorem floydWarshall_le {n : ℕ} (M : Mat n) : MatLE (floydWarshall M) M :=
  fwK_le (List.finRange n) M

theorem relaxVal_mono {n : ℕ} {A B : Mat n} (h : MatLE A B) (k i j : Fin n) :
    relaxVal A k i j ≤ relaxVal B k i j := by
  rw [relaxVal_eq_min, relaxVal_eq_min]
  exact min_le_min (h i j) (add_le_add (h i k) (h k j))

theorem fwJ_mono {n : ℕ} (k i : Fin n) :
    ∀ (js : List (Fin n)) {A B : Mat n}, MatLE A B →
      MatLE (fwJ A k i js) (fwJ B k i js) := by
  intro js
  induction js with
  | nil => intro A B h; exact h
  | cons j js ih =>
    intro A B h
    have h1 : MatLE (setEntry A i j (relaxVal A k i j))
        (setEntry B i j (relaxVal B k i j)) := by
      intro a b
      by_cases hc : a = i ∧ b = j
      · obtain ⟨h1, h2⟩ := hc
        subst h1; subst h2
        rw [setEntry_same, setEntry_same]
        exact relaxVal_mono h k _ _
      · rw [setEntry_ne _ _ _ _ _ _ hc, setEntry_ne _ _ _ _ _ _ hc]
        exact h a b
    exact ih h1

theorem fwI_mono {n : ℕ} (k : Fin n) :
    ∀ (is2 : List (Fin n)) {A B : Mat n}, MatLE A B →
      MatLE (fwI A k is2) (fwI B k is2) := by
  intro is2
  induction is2 with
  | nil => intro A B h; exact h
  | cons i is2 ih => intro A B h; exact ih (fwJ_mono k i _ h)

theorem fwK_mono {n : ℕ} :
    ∀ (ks : List (Fin n)) {A B : Mat n}, MatLE A B →
      MatLE (fwK A ks) (fwK B ks) := by
  intro ks
  induction ks with
  | nil => intro A B h; exact h
  | cons k ks ih => intro A B h; exact ih (fwI_mono k _ h)

theorem floydWarshall_mono {n : ℕ} {A B : Mat n} (h : MatLE A B) :
    MatLE (floydWarshall A) (floydWarshall B) :=
  fwK_mono (List.finRange n) h

theorem relaxVal_connected {n : ℕ} {A M : Mat n} (k i j : Fin n)
    (hInv : ∀ a b, M a b ≠ ⊤ → ConnectedIn A a b)
    (h : relaxVal M k i j ≠ ⊤) : ConnectedIn A i j := by
  rw [relaxVal_eq_min] at h
  rcases min_choice (M i j) (M i k + M k j) with hmin | hmin
  · exact hInv i j (hmin ▸ h)
  · rw [hmin] at h
    obtain ⟨h1, h2⟩ := WithTop.add_ne_top.mp h
    exact Relation.ReflTransGen.trans (hInv i k h1) (hInv k j h2)

theorem fwJ_connected {n : ℕ} {A : Mat n} (k i : Fin n) :
    ∀ (js : List (Fin n)) (M : Mat n),
      (∀ a b, M a b ≠ ⊤ → ConnectedIn A a b) →
      ∀ a b, fwJ M k i js a b ≠ ⊤ → ConnectedIn A a b := by
  intro js
  induction js with
  | nil => intro M hInv; exact hInv
  | cons j js ih =>
    intro M hInv
    refine ih (setEntry M i j (relaxVal M k i j)) ?_
    intro a b hab
    by_cases hc : a = i ∧ b = j
    · obtain ⟨h1, h2⟩ := hc
      subst h1; subst h2
      rw [setEntry_same] at hab
      exact relaxVal_connected k a b hInv hab
    · rw [setEntry_ne _ _ _ _ _ _ hc] at hab
      exact hInv a b hab

theorem fwI_connected {n : ℕ} {A : Mat n} (k : Fin n) :
    ∀ (is2 : List (Fin n)) (M : Mat n),
      (∀ a b, M a b ≠ ⊤ → ConnectedIn A a b) →
      ∀ a b, fwI M k is2 a b ≠ ⊤ → ConnectedIn A a b := by
  intro is2
  induction is2 with
  | nil => intro M hInv; exact hInv
  | cons i is2 ih =>
    intro M hInv
    exact ih (fwJ M k i (List.finRange n)) (fwJ_connected k i _ M hInv)

theorem fwK_connected {n : ℕ} {A : Mat n} :
    ∀ (ks : List (Fin n)) (M : Mat n),
      (∀ a b, M a b ≠ ⊤ → ConnectedIn A a b) →
      ∀ a b, fwK M ks a b ≠ ⊤ → ConnectedIn A a b := by
  intro ks
  induction ks with
  | nil => intro M hInv; exact hInv
  | cons k ks ih =>
    intro M hInv
    exact ih (fwI M k (List.finRange n)) (fwI_connected k _ M hInv)

/-- Soundness of the all-pairs pass: a finite final entry witnesses a
chain of finite initial edges. -/
theorem floydWarshall_sound {n : ℕ} (A : Mat n) (s t : Fin n)
    (h : floydWarshall A s t ≠ ⊤) : ConnectedIn A s t := by
  refine fwK_connected (List.finRange n) A ?_ s t h
  intro a b hab
  exact Relation.ReflTransGen.single hab

/-- Completeness of the all-pairs pass: a chain of finite initial edges
forces a finite final entry. -/
theorem floydWarshall_complete {n : ℕ} (A : Mat n) (hd : Diag0 A)
    (hn : Nonneg A) (s t : Fin n) (h : ConnectedIn A s t) :
    floydWarshall A s t ≠ ⊤ := by
  induction h with
  | refl =>
    have h1 : floydWarshall A s s ≤ A s s := floydWarshall_le A s s
    rw [hd s] at h1
    intro hc
    rw [hc] at h1
    exact absurd h1 (by simp)
  | tail _ hedge ih =>
    rename_i b c _
    have htri : floydWarshall A s c ≤
        floydWarshall A s b + floydWarshall A b c :=
      floydWarshall_tri A hd hn b s c
    have h2 : floydWarshall A b c ≠ ⊤ :=
      ne_top_of_le_ne_top hedge (floydWarshall_le A b c)
    have h3 : floydWarshall A s b + floydWarshall A b c ≠ ⊤ :=
      WithTop.add_ne_top.mpr ⟨ih, h2⟩
    exact ne_top_of_le_ne_top h3 htri

theorem filteredAdj_diag0 {v n : ℕ} (adjAux : Mat v) (av : Fin n → Fin v)
    (c : ℚ) : Diag0 (filteredAdj adjAux av c) := by
  intro i; simp [filteredAdj]

theorem filteredAdj_nonneg {v n : ℕ} (adjAux : Mat v) (av : Fin n → Fin v)
    (c : ℚ) (haux : ∀ i j, (0 : QW) ≤ adjAux i j) :
    Nonneg (filteredAdj adjAux av c) := by
  intro i j
  unfold filteredAdj
  split_ifs
  · exact le_refl _
  · exact haux _ _
  · exact le_top

theorem filteredAdj_anti {v n : ℕ} (adjAux : Mat v) (av : Fin n → Fin v)
    {c1 c2 : ℚ} (h : c1 ≤ c2) :
    MatLE (filteredAdj adjAux av c2) (filteredAdj adjAux av c1) := by
  intro i j
  unfold filteredAdj
  by_cases hij : i = j
  · rw [if_pos hij, if_pos hij]
  · rw [if_neg hij, if_neg hij]
    by_cases h1 : adjAux (av i) (av j) ≤ ((c1 + EPSq : ℚ) : QW)
    · have h2 : adjAux (av i) (av j) ≤ ((c2 + EPSq : ℚ) : QW) := by
        refine le_trans h1 ?_
        exact_mod_cast add_le_add_right h EPSq
      rw [if_pos h1, if_pos h2]
    · rw [if_neg h1]
      exact le_top

end MCpp

/-- C5: after the all-pairs pass of the scenario build (main.cpp lines
356-398 build the adjacency with zero diagonal, symmetric non-negative
weights, then run Floyd-Warshall), the resulting distance matrix is
symmetric, has zero diagonal, and satisfies the triangle inequality
whenever the right-hand side is finite (it in fact holds even with an
infinite right-hand side, since top is the largest element). -/
theorem c5_matrix_invariants {n : ℕ} (A : MCpp.Mat n) (hs : MCpp.Symm A)
    (hd : MCpp.Diag0 A) (hn : MCpp.Nonneg A) :
    (∀ i j, MCpp.floydWarshall A i j = MCpp.floydWarshall A j i) ∧
      (∀ i, MCpp.floydWarshall A i i = 0) ∧
      (∀ i j k, MCpp.floydWarshall A i k ≠ ⊤ → MCpp.floydWarshall A k j ≠ ⊤ →
        MCpp.floydWarshall A i j ≤
          MCpp.floydWarshall A i k + MCpp.floydWarshall A k j) :=
  ⟨MCpp.floydWarshall_symm A hd hn hs, MCpp.floydWarshall_diag0 A hd hn,
    fun i j k _ _ => MCpp.floydWarshall_tri A hd hn k i j⟩

/-- C5, witness at the one-vertex all-zero adjacency matrix. -/
theorem c5_witness :
    MCpp.Symm (fun _ _ => (0 : MCpp.QW) : MCpp.Mat 1) ∧
      MCpp.Diag0 (fun _ _ => (0 : MCpp.QW) : MCpp.Mat 1) ∧
      MCpp.Nonneg (fun _ _ => (0 : MCpp.QW) : MCpp.Mat 1) ∧
      ((∀ i j, MCpp.floydWarshall (fun _ _ => (0 : MCpp.QW) : MCpp.Mat 1) i j =
          MCpp.floydWarshall (fun _ _ => (0 : MCpp.QW) : MCpp.Mat 1) j i) ∧
        (∀ i, MCpp.floydWarshall (fun _ _ => (0 : MCpp.QW) : MCpp.Mat 1) i i = 0) ∧
        (∀ i j k,
          MCpp.floydWarshall (fun _ _ => (0 : MCpp.QW) : MCpp.Mat 1) i k ≠ ⊤ →
          MCpp.floydWarshall (fun _ _ => (0 : MCpp.QW) : MCpp.Mat 1) k j ≠ ⊤ →
          MCpp.floydWarshall (fun _ _ => (0 : MCpp.QW) : MCpp.Mat 1) i j ≤
            MCpp.floydWarshall (fun _ _ => (0 : MCpp.QW) : MCpp.Mat 1) i k +
              MCpp.floydWarshall (fun _ _ => (0 : MCpp.QW) : MCpp.Mat 1) k j)) :=
  ⟨fun _ _ => rfl, fun _ => rfl, fun _ _ => le_refl _,
    c5_matrix_invariants _ (fun _ _ => rfl) (fun _ => rfl)
      (fun _ _ => le_refl _)⟩

/-- C6: for a fixed scenario (augmented-graph matrix adj_aux with its
airport-to-vertex map) and fixed source and target, the per-query answer
of main.cpp is monotone in the capacity: a larger capacity keeps every
reachable target reachable and never increases the reported distance. -/
theorem c6_capacity_monotone {v n : ℕ} (adjAux : MCpp.Mat v)
    (av : Fin n → Fin v) {c1 c2 : ℚ} (h : c1 ≤ c2) (s t : Fin n) :
    MCpp.queryDist adjAux av c2 s t ≤ MCpp.queryDist adjAux av c1 s t ∧
      (MCpp.queryDist adjAux av c1 s t ≠ ⊤ →
        MCpp.queryDist adjAux av c2 s t ≠ ⊤) := by
  have hmono := MCpp.floydWarshall_mono (MCpp.filteredAdj_anti adjAux av h) s t
  exact ⟨hmono, fun h1 => ne_top_of_le_ne_top h1 hmono⟩

/-- C6, witness at the one-airport scenario with capacities 0 and 1. -/
theorem c6_witness :
    (0 : ℚ) ≤ 1 ∧
      (MCpp.queryDist (fun _ _ => (0 : MCpp.QW) : MCpp.Mat 1) id 1 0 0 ≤
          MCpp.queryDist (fun _ _ => (0 : MCpp.QW) : MCpp.Mat 1) id 0 0 0 ∧
        (MCpp.queryDist (fun _ _ => (0 : MCpp.QW) : MCpp.Mat 1) id 0 0 0 ≠ ⊤ →
          MCpp.queryDist (fun _ _ => (0 : MCpp.QW) : MCpp.Mat 1) id 1 0 0 ≠ ⊤)) :=
  ⟨by norm_num,
    c6_capacity_monotone (fun _ _ => (0 : MCpp.QW)) id (by norm_num) 0 0⟩

/-- C7, amended: main.cpp prints "impossible" for a query exactly when no
chain of capacity-respecting safe legs (finite entries of the filtered
airport matrix) connects source to target, and prints a finite distance
otherwise; every main.cpp relaxation guards both operands of its
addition against INFINITY.  In main.c the Floyd-Warshall relaxation
guards only D[i][k], so the INF sentinel can enter an addition (the
counterexample), but with non-negative entries such a sum never replaces
a finite matrix entry. -/
theorem c7_impossible_iff_no_chain {v n : ℕ} (adjAux : MCpp.Mat v)
    (av : Fin n → Fin v) (c : ℚ)
    (haux : ∀ i j, (0 : MCpp.QW) ≤ adjAux i j) (s t : Fin n) :
    (MCpp.queryDist adjAux av c s t = ⊤ ↔
        ¬ MCpp.ConnectedIn (MCpp.filteredAdj adjAux av c) s t) ∧
      (∀ (m : ℕ) (M : MCpp.Mat m) (k i j : Fin m) (p : MCpp.QW × MCpp.QW),
        MCpp.relaxSummandsCpp M k i j = some p → p.1 ≠ ⊤ ∧ p.2 ≠ ⊤) ∧
      (∀ (m : ℕ) (D : Fin m → Fin m → ℚ) (i k j : Fin m),
        (∀ a b, 0 ≤ D a b) → D i j ≤ MC.INFC → MC.INFC ≤ D k j →
          MC.relaxEntryC D i k j = D i j) := by
  refine ⟨?_, ?_, ?_⟩
  · have hd := MCpp.filteredAdj_diag0 adjAux av c
    have hn := MCpp.filteredAdj_nonneg adjAux av c haux
    constructor
    · intro htop hconn
      exact MCpp.floydWarshall_complete _ hd hn s t hconn htop
    · intro hnc
      by_contra hne
      exact hnc (MCpp.floydWarshall_sound _ s t hne)
  · intro m M k i j p hp
    unfold MCpp.relaxSummandsCpp at hp
    by_cases hc : M i k ≠ ⊤ ∧ M k j ≠ ⊤
    · rw [if_pos hc] at hp
      obtain rfl : (M i k, M k j) = p := by simpa using hp
      exact hc
    · rw [if_neg hc] at hp
      exact absurd hp (by simp)
  · intro m D i k j hnn hij hkj
    unfold MC.relaxEntryC
    by_cases h1 : D i k ≥ MC.INFC
    · rw [if_pos h1]
    · rw [if_neg h1]
      have : ¬ D i k + D k j < D i j := by
        refine not_lt.mpr ?_
        calc D i j ≤ MC.INFC := hij
          _ ≤ D k j := hkj
          _ ≤ D i k + D k j := le_add_of_nonneg_left (hnn i k)
      rw [if_neg this]

/-- C7, counterexample to the claim as stated: in the concrete 3-vertex
scenario Dcex the main.c relaxation for (i, k, j) = (0, 1, 2) performs
the addition D[0][1] + D[1][2] although D[1][2] is the INF sentinel, so
it is not true that every relaxation guards against an infinite
operand. -/
theorem c7_cex : ¬ MC.relaxGuarded MC.Dcex 0 1 2 := by
  intro h
  have h5 : MC.Dcex 0 1 = 5 := by
    simp [MC.Dcex, Fin.ext_iff]
  have hI : MC.Dcex 1 2 = MC.INFC := by
    simp [MC.Dcex, Fin.ext_iff]
  have hsum : MC.relaxSummands MC.Dcex 0 1 2 = some (5, MC.INFC) := by
    unfold MC.relaxSummands
    rw [h5, hI]
    rw [if_neg (by norm_num [MC.INFC])]
  have h2 := h (5, MC.INFC) hsum
  exact absurd h2.2 (lt_irrefl _)

/-- C7, witness for the amended theorem at the one-airport scenario. -/
theorem c7_witness :
    (∀ i j : Fin 1, (0 : MCpp.QW) ≤ (fun _ _ => (0 : MCpp.QW) : MCpp.Mat 1) i j) ∧
      ((MCpp.queryDist (fun _ _ => (0 : MCpp.QW) : MCpp.Mat 1) id 0 0 0 = ⊤ ↔
          ¬ MCpp.ConnectedIn
            (MCpp.filteredAdj (fun _ _ => (0 : MCpp.QW) : MCpp.Mat 1) id 0) 0 0) ∧
        (∀ (m : ℕ) (M : MCpp.Mat m) (k i j : Fin m) (p : MCpp.QW × MCpp.QW),
          MCpp.relaxSummandsCpp M k i j = some p → p.1 ≠ ⊤ ∧ p.2 ≠ ⊤) ∧
        (∀ (m : ℕ) (D : Fin m → Fin m → ℚ) (i k j : Fin m),
          (∀ a b, 0 ≤ D a b) → D i j ≤ MC.INFC → MC.INFC ≤ D k j →
            MC.relaxEntryC D i k j = D i j)) :=
  ⟨fun _ _ => le_refl _,
    c7_impossible_iff_no_chain (fun _ _ => (0 : MCpp.QW)) id 0
      (fun _ _ => le_refl _) 0 0⟩

/-- C10: a valid query whose source equals its target reports distance 0
(hence never "impossible"), for every capacity (including 0) and every
scenario matrix with non-negative entries. -/
theorem c10_same_airport_zero {v n : ℕ} (adjAux : MCpp.Mat v)
    (av : Fin n → Fin v) (c : ℚ)
    (haux : ∀ i j, (0 : MCpp.QW) ≤ adjAux i j) (s : Fin n) :
    MCpp.queryDist adjAux av c s s = 0 ∧
      MCpp.queryDist adjAux av c s s ≠ ⊤ := by
  have hd := MCpp.filteredAdj_diag0 adjAux av c
  have hn := MCpp.filteredAdj_nonneg adjAux av c haux
  have h0 : MCpp.queryDist adjAux av c s s = 0 :=
    MCpp.floydWarshall_diag0 _ hd hn s
  exact ⟨h0, by rw [h0]; simp⟩

/-- C10, witness at the one-airport scenario with capacity 0. -/
theorem c10_witness :
    (∀ i j : Fin 1, (0 : MCpp.QW) ≤ (fun _ _ => (0 : MCpp.QW) : MCpp.Mat 1) i j) ∧
      (MCpp.queryDist (fun _ _ => (0 : MCpp.QW) : MCpp.Mat 1) id 0 0 0 = 0 ∧
        MCpp.queryDist (fun _ _ => (0 : MCpp.QW) : MCpp.Mat 1) id 0 0 0 ≠ ⊤) :=
  ⟨fun _ _ => le_refl _,
    c10_same_airport_zero (fun _ _ => (0 : MCpp.QW)) id 0
      (fun _ _ => le_refl _) 0⟩

/-- C8, code evaluation at the failing input: main.cpp conditions
cos_beta_arg only when it lies outside [-1 - EPS, 1 + EPS], so the value
1 + 5e-10 (reachable when d_ang lies in the sliver (2 r_ang,
2 r_ang + EPS] admitted by the distance guard) is passed to acos
unclamped and above 1, contradicting the claim that every inverse
trigonometric argument is first clamped into [-1, 1]. -/
theorem c8_unclamped_acos_arg :
    MCpp.clampCosBetaArg ((1 : ℚ) + 5 / 10 ^ 10) = 1 + 5 / 10 ^ 10 ∧
      1 < MCpp.clampCosBetaArg ((1 : ℚ) + 5 / 10 ^ 10) := by
  have h : MCpp.clampCosBetaArg ((1 : ℚ) + 5 / 10 ^ 10) = 1 + 5 / 10 ^ 10 := by
    unfold MCpp.clampCosBetaArg
    rw [if_neg]
    push_neg
    constructor <;> norm_num
  exact ⟨h, by rw [h]; norm_num⟩

/-- C9, amended: main.cpp treats every pair closer than EPS as safe
(is_arc_safe line 291) and connects it by a finite direct edge of
weight dist_xyz (0 for identical positions, below EPS in general, not
exactly 0), while main.c skips every pair with theta_ab below 1e-12
(line 139) and leaves such coincident distinct vertices with no direct
edge at all (the INF sentinel), refuting the claim that the pair is
connected at distance 0 for both implementations. -/
theorem c9_coincident_pairs :
    (∀ (u v : V3) (airports : List V3) (R : ℝ),
        MCpp.dist_xyz u v < MCpp.EPSR → MCpp.is_arc_safe u v airports R) ∧
      (∀ (u v : V3) (airports : List V3) (R : ℝ),
        MCpp.dist_xyz u v < MCpp.EPSR →
          MCpp.adjEntry u v airports R = (MCpp.dist_xyz u v : WithTop ℝ)) ∧
      (∀ (va vb : V3) (airports : List V3) (cosA : ℝ),
        Real.arccos (MC.clampPM1 (MC.dot va vb)) < MC.tol12 →
          MC.edgeForPair va vb airports cosA = MC.INFC) := by
  refine ⟨?_, ?_, ?_⟩
  · intro u v airports R h
    unfold MCpp.is_arc_safe
    rw [if_pos h]
    trivial
  · intro u v airports R h
    simp only [MCpp.adjEntry]
    rw [if_pos h]
  · intro va vb airports cosA h
    simp only [MC.edgeForPair]
    rw [if_pos h]

/-- C9, counterexample: two distinct vertices at the identical position
(1, 0, 0), as main.c produces them for two airports at the same
coordinates, get no direct edge in main.c: the per-pair routine returns
the INF sentinel, not a connection at distance 0. -/
theorem c9_cex :
    MC.edgeForPair ⟨1, 0, 0⟩ ⟨1, 0, 0⟩ [⟨1, 0, 0⟩, ⟨1, 0, 0⟩] 1 = MC.INFC ∧
      (MC.INFC : ℝ) ≠ 0 := by
  constructor
  · have h1 : MC.dot (⟨1, 0, 0⟩ : V3) ⟨1, 0, 0⟩ = 1 := by norm_num [MC.dot]
    have h : Real.arccos (MC.clampPM1 (MC.dot (⟨1, 0, 0⟩ : V3) ⟨1, 0, 0⟩)) <
        MC.tol12 := by
      rw [h1]
      have h2 : MC.clampPM1 1 = 1 := by norm_num [MC.clampPM1]
      rw [h2, Real.arccos_one]
      norm_num [MC.tol12]
    simp only [MC.edgeForPair]
    rw [if_pos h]
  · norm_num [MC.INFC]

theorem magnitude_e1 : MCpp.magnitude ⟨1, 0, 0⟩ = 1 := by
  unfold MCpp.magnitude MCpp.dot
  rw [show (1 : ℝ) * 1 + 0 * 0 + 0 * 0 = 1 by norm_num, Real.sqrt_one]

theorem normalize_e1 : MCpp.normalize ⟨1, 0, 0⟩ = ⟨1, 0, 0⟩ := by
  unfold MCpp.normalize
  rw [magnitude_e1, if_neg (by norm_num [MCpp.EPSR])]
  unfold MCpp.divP
  norm_num

theorem dist_xyz_e1_self : MCpp.dist_xyz ⟨1, 0, 0⟩ ⟨1, 0, 0⟩ = 0 := by
  unfold MCpp.dist_xyz
  rw [normalize_e1]
  rw [show MCpp.dot ⟨1, 0, 0⟩ ⟨1, 0, 0⟩ = 1 by norm_num [MCpp.dot]]
  rw [show MCpp.clampD 1 = 1 by norm_num [MCpp.clampD]]
  rw [Real.arccos_one, zero_mul]

/-- C9, witness for the amended theorem at two identical positions. -/
theorem c9_witness :
    MCpp.dist_xyz ⟨1, 0, 0⟩ ⟨1, 0, 0⟩ < MCpp.EPSR ∧
      Real.arccos (MC.clampPM1 (MC.dot ⟨1, 0, 0⟩ ⟨1, 0, 0⟩)) < MC.tol12 ∧
      MCpp.is_arc_safe ⟨1, 0, 0⟩ ⟨1, 0, 0⟩ [] 1 ∧
      MCpp.adjEntry ⟨1, 0, 0⟩ ⟨1, 0, 0⟩ [] 1 =
        (MCpp.dist_xyz ⟨1, 0, 0⟩ ⟨1, 0, 0⟩ : WithTop ℝ) ∧
      MC.edgeForPair ⟨1, 0, 0⟩ ⟨1, 0, 0⟩ [] 1 = MC.INFC := by
  have hd : MCpp.dist_xyz (⟨1, 0, 0⟩ : V3) ⟨1, 0, 0⟩ < MCpp.EPSR := by
    rw [dist_xyz_e1_self]
    norm_num [MCpp.EPSR]
  have hth : Real.arccos (MC.clampPM1 (MC.dot (⟨1, 0, 0⟩ : V3) ⟨1, 0, 0⟩)) <
      MC.tol12 := by
    rw [show MC.dot (⟨1, 0, 0⟩ : V3) ⟨1, 0, 0⟩ = 1 by norm_num [MC.dot]]
    rw [show MC.clampPM1 1 = 1 by norm_num [MC.clampPM1]]
    rw [Real.arccos_one]
    norm_num [MC.tol12]
  exact ⟨hd, hth, c9_coincident_pairs.1 _ _ [] 1 hd,
    c9_coincident_pairs.2.1 _ _ [] 1 hd,
    c9_coincident_pairs.2.2 _ _ [] 1 hth⟩

theorem buildVertexSet_pairwise (ps : List V3) :
    (MCpp.buildVertexSet ps).Pairwise fun a b => ¬ MCpp.eqvPoint a b := by
  have key : ∀ (qs acc : List V3),
      acc.Pairwise (fun a b => ¬ MCpp.eqvPoint a b) →
      (qs.foldl MCpp.insertUnique acc).Pairwise
        fun a b => ¬ MCpp.eqvPoint a b := by
    intro qs
    induction qs with
    | nil => intro acc h; exact h
    | cons p qs ih =>
      intro acc h
      simp only [List.foldl_cons]
      refine ih _ ?_
      unfold MCpp.insertUnique
      by_cases hc : ∃ q ∈ acc, MCpp.eqvPoint p q
      · rw [if_pos hc]; exact h
      · rw [if_neg hc]
        rw [List.pairwise_append]
        refine ⟨h, by simp, ?_⟩
        intro a ha b hb
        rw [List.mem_singleton] at hb
        subst hb
        intro he
        exact hc ⟨a, ha, ⟨he.2, he.1⟩⟩
  exact key ps [] (by simp)

theorem eqvPoint_iff_closePos (a b : V3) :
    MCpp.eqvPoint a b ↔ MCpp.closePos a b := by
  unfold MCpp.eqvPoint MCpp.ltPoint MCpp.closePos
  have hpos : (0 : ℝ) < MCpp.EPSR := by norm_num [MCpp.EPSR]
  by_cases hx : |a.x - b.x| > MCpp.EPSR
  · have hx2 : |b.x - a.x| > MCpp.EPSR := by rwa [abs_sub_comm]
    rw [if_pos hx, if_pos hx2]
    constructor
    · rintro ⟨h1, h2⟩
      have heq : a.x = b.x := le_antisymm (not_lt.mp h2) (not_lt.mp h1)
      rw [heq] at hx
      simp at hx
      exact absurd hx (not_lt.mpr hpos.le)
    · rintro ⟨h1, _, _⟩
      exact absurd hx (not_lt.mpr h1)
  · have hx2 : ¬ |b.x - a.x| > MCpp.EPSR := by rwa [abs_sub_comm]
    rw [if_neg hx, if_neg hx2]
    have hax : |a.x - b.x| ≤ MCpp.EPSR := not_lt.mp hx
    by_cases hy : |a.y - b.y| > MCpp.EPSR
    · have hy2 : |b.y - a.y| > MCpp.EPSR := by rwa [abs_sub_comm]
      rw [if_pos hy, if_pos hy2]
      constructor
      · rintro ⟨h1, h2⟩
        have heq : a.y = b.y := le_antisymm (not_lt.mp h2) (not_lt.mp h1)
        rw [heq] at hy
        simp at hy
        exact absurd hy (not_lt.mpr hpos.le)
      · rintro ⟨_, h2, _⟩
        exact absurd hy (not_lt.mpr h2)
    · have hy2 : ¬ |b.y - a.y| > MCpp.EPSR := by rwa [abs_sub_comm]
      rw [if_neg hy, if_neg hy2]
      have hay : |a.y - b.y| ≤ MCpp.EPSR := not_lt.mp hy
      constructor
      · rintro ⟨h1, h2⟩
        refine ⟨hax, hay, ?_⟩
        rw [abs_sub_le_iff]
        constructor <;> [skip; skip] <;>
          [linarith [not_lt.mp h1]; linarith [not_lt.mp h2]]
      · rintro ⟨_, _, h3⟩
        rw [abs_sub_le_iff] at h3
        constructor <;> intro hlt
        · linarith [h3.1]
        · linarith [h3.2]

/-- C4, amended: main.cpp inserts every candidate into a set keyed by
the approximate comparator Point::Compare, so (under the specified
set-insert semantics) no two stored vertices are comparator-equivalent,
and comparator equivalence is exactly componentwise agreement within
EPS; main.c however performs no deduplication at all, so duplicate
positions persist as distinct vertices (the counterexample). -/
theorem c4_dedup_by_comparator :
    (∀ ps : List V3,
        (MCpp.buildVertexSet ps).Pairwise fun a b => ¬ MCpp.eqvPoint a b) ∧
      ∀ a b : V3, MCpp.eqvPoint a b ↔ MCpp.closePos a b :=
  ⟨buildVertexSet_pairwise, eqvPoint_iff_closePos⟩

/-- C4, counterexample: with two airports at the same input coordinates
(lon, lat) = (0, 0), main.c builds the node list [(1,0,0), (1,0,0)],
which contains two distinct vertices at positions that agree within
epsilon, refuting the claim for the augmented vertex set of main.c. -/
theorem c4_cex :
    MC.buildNodes (MC.airportsOf [((0 : ℝ), 0), (0, 0)]) 0 =
        [⟨1, 0, 0⟩, ⟨1, 0, 0⟩] ∧
      ¬ (MC.buildNodes (MC.airportsOf [((0 : ℝ), 0), (0, 0)]) 0).Pairwise
          fun a b => ¬ MCpp.closePos a b := by
  have hsph : MC.sph2vec 0 0 = (⟨1, 0, 0⟩ : V3) := by
    unfold MC.sph2vec
    norm_num
  have hair : MC.airportsOf [((0 : ℝ), 0), (0, 0)] =
      [(⟨1, 0, 0⟩ : V3), ⟨1, 0, 0⟩] := by
    simp [MC.airportsOf, hsph]
  have hcn : MC.circleNodes ⟨1, 0, 0⟩ ⟨1, 0, 0⟩ 0 = [] := by
    simp only [MC.circleNodes, MC.dot]
    rw [if_neg, if_pos]
    · norm_num
    · rw [show (2 : ℝ) * 0 = 0 by ring, Real.cos_zero]
      norm_num
  have hnodes : MC.buildNodes (MC.airportsOf [((0 : ℝ), 0), (0, 0)]) 0 =
      [(⟨1, 0, 0⟩ : V3), ⟨1, 0, 0⟩] := by
    rw [hair]
    unfold MC.buildNodes MC.ordPairs MC.ordPairs MC.ordPairs
    simp [hcn]
  refine ⟨hnodes, ?_⟩
  rw [hnodes]
  simp only [List.pairwise_cons, List.mem_singleton]
  intro hcon
  have := hcon.1 ⟨1, 0, 0⟩ rfl
  apply this
  unfold MCpp.closePos
  norm_num [MCpp.EPSR]

/-- C3, amended: the circle intersector of main.cpp returns no points
when the angular distance of the centers exceeds 2 r beyond EPS or when
the centers coincide within EPS, exactly one point when beta is within
EPS of 0 (tangency), and exactly two points otherwise; in the two-point
case the points are symmetric: their sum is the scaled midpoint
direction times 2 cos beta.  The intersector of main.c, by contrast,
pushes either zero or exactly two candidate nodes, never one: at
tangency (h = 0) it pushes two coincident nodes instead of one (the
counterexample), refuting the claim as stated for main.c. -/
theorem c3_intersection_count (c1 c2 : V3) (R_sphere : ℝ) :
    (MCpp.get_small_circle_intersections c1 c2 R_sphere).length =
      (if MCpp.d_angOf c1 c2 > 2 * (R_sphere / MCpp.R_earth) + MCpp.EPSR then 0
        else if MCpp.d_angOf c1 c2 < MCpp.EPSR then 0
        else if MCpp.betaOf c1 c2 R_sphere > MCpp.EPSR then 2 else 1) ∧
      (¬ MCpp.d_angOf c1 c2 > 2 * (R_sphere / MCpp.R_earth) + MCpp.EPSR →
        ¬ MCpp.d_angOf c1 c2 < MCpp.EPSR →
        MCpp.betaOf c1 c2 R_sphere > MCpp.EPSR →
        ∃ p q : V3,
          MCpp.get_small_circle_intersections c1 c2 R_sphere = [p, q] ∧
            MCpp.addP p q = MCpp.scaleEarth (MCpp.smul
              (MCpp.point_at_angle_on_great_circle (MCpp.normalize c1)
                (MCpp.normalize c2) (MCpp.d_angOf c1 c2 / 2))
              (2 * Real.cos (MCpp.betaOf c1 c2 R_sphere)))) ∧
      (∀ (u v : V3) (alpha : ℝ),
        (MC.circleNodes u v alpha).length = 0 ∨
          (MC.circleNodes u v alpha).length = 2) := by
  refine ⟨?_, ?_, ?_⟩
  · simp only [MCpp.get_small_circle_intersections]
    by_cases h1 : MCpp.d_angOf c1 c2 > 2 * (R_sphere / MCpp.R_earth) + MCpp.EPSR
    · rw [if_pos h1, if_pos h1]
      rfl
    · rw [if_neg h1, if_neg h1]
      by_cases h2 : MCpp.d_angOf c1 c2 < MCpp.EPSR
      · rw [if_pos h2, if_pos h2]
        rfl
      · rw [if_neg h2, if_neg h2]
        by_cases h3 : MCpp.betaOf c1 c2 R_sphere > MCpp.EPSR
        · rw [if_pos h3, if_pos h3]
          rfl
        · rw [if_neg h3, if_neg h3]
          rfl
  · intro h1 h2 h3
    refine
      ⟨MCpp.scaleEarth (MCpp.addP
          (MCpp.smul (MCpp.point_at_angle_on_great_circle (MCpp.normalize c1)
            (MCpp.normalize c2) (MCpp.d_angOf c1 c2 / 2))
            (Real.cos (MCpp.betaOf c1 c2 R_sphere)))
          (MCpp.smul (MCpp.normalize (MCpp.cross
            (MCpp.point_at_angle_on_great_circle (MCpp.normalize c1)
              (MCpp.normalize c2) (MCpp.d_angOf c1 c2 / 2))
            (MCpp.subP (MCpp.normalize c1) (MCpp.normalize c2))))
            (Real.sin (MCpp.betaOf c1 c2 R_sphere)))),
        MCpp.scaleEarth (MCpp.subP
          (MCpp.smul (MCpp.point_at_angle_on_great_circle (MCpp.normalize c1)
            (MCpp.normalize c2) (MCpp.d_angOf c1 c2 / 2))
            (Real.cos (MCpp.betaOf c1 c2 R_sphere)))
          (MCpp.smul (MCpp.normalize (MCpp.cross
            (MCpp.point_at_angle_on_great_circle (MCpp.normalize c1)
              (MCpp.normalize c2) (MCpp.d_angOf c1 c2 / 2))
            (MCpp.subP (MCpp.normalize c1) (MCpp.normalize c2))))
            (Real.sin (MCpp.betaOf c1 c2 R_sphere)))), ?_, ?_⟩
    · simp only [MCpp.get_small_circle_intersections]
      rw [if_neg h1, if_neg h2, if_pos h3]
    · unfold MCpp.addP MCpp.subP MCpp.smul MCpp.scaleEarth
      simp only [V3.mk.injEq]
      refine ⟨by ring, by ring, by ring⟩
  · intro u v alpha
    simp only [MC.circleNodes]
    split_ifs <;> simp

/-- C3, counterexample to the claim as stated: at exact tangency
(shared angular radius alpha = pi/4, centers (1,0,0) and (0,1,0) at
angular distance pi/2 = 2 alpha, where the beta of the claim,
arccos(cos r / cos(d/2)), equals 0), main.c pushes two coincident
nodes at (sqrt2/2, sqrt2/2, 0) instead of exactly one point. -/
theorem c3_cex :
    MC.circleNodes ⟨1, 0, 0⟩ ⟨0, 1, 0⟩ (Real.pi / 4) =
        [⟨Real.sqrt 2 / 2, Real.sqrt 2 / 2, 0⟩,
          ⟨Real.sqrt 2 / 2, Real.sqrt 2 / 2, 0⟩] ∧
      (MC.circleNodes ⟨1, 0, 0⟩ ⟨0, 1, 0⟩ (Real.pi / 4)).length ≠ 1 ∧
      Real.arccos (Real.cos (Real.pi / 4) / Real.cos (Real.pi / 2 / 2)) = 0 := by
  have hsq2 : Real.sqrt 2 * Real.sqrt 2 = 2 := Real.mul_self_sqrt (by norm_num)
  have hmain : MC.circleNodes ⟨1, 0, 0⟩ ⟨0, 1, 0⟩ (Real.pi / 4) =
      [⟨Real.sqrt 2 / 2, Real.sqrt 2 / 2, 0⟩,
        ⟨Real.sqrt 2 / 2, Real.sqrt 2 / 2, 0⟩] := by
    simp only [MC.circleNodes, MC.dot, MC.cross]
    norm_num
    rw [show (2 : ℝ) * (Real.pi / 4) = Real.pi / 2 by ring, Real.cos_pi_div_two]
    rw [if_neg (by norm_num : ¬ ((1 : ℝ) / 1000000000000 < 0))]
    rw [show Real.sqrt 2 / 2 * (Real.sqrt 2 / 2) +
        Real.sqrt 2 / 2 * (Real.sqrt 2 / 2) = 1 by nlinarith]
    rw [show MC.norm (⟨0, 0, 1⟩ : V3) = 1 by
      unfold MC.norm MC.dot
      rw [show (0 : ℝ) * 0 + 0 * 0 + 1 * 1 = 1 by norm_num, Real.sqrt_one]]
    rw [if_neg (by norm_num : ¬ ((1 : ℝ) < 1))]
    norm_num [Real.sqrt_zero, MC.scale, MC.addv, MC.subv]
    unfold MC.normalize MC.norm MC.dot MC.scale
    rw [show Real.sqrt 2 / 2 * (Real.sqrt 2 / 2) +
        Real.sqrt 2 / 2 * (Real.sqrt 2 / 2) + 0 * 0 = 1 by nlinarith]
    rw [Real.sqrt_one]
    norm_num
  refine ⟨hmain, ?_, ?_⟩
  · rw [hmain]
    norm_num
  · rw [show Real.pi / 2 / 2 = Real.pi / 4 by ring]
    rw [div_self (by
      rw [Real.cos_pi_div_four]
      have h2 : (0 : ℝ) < Real.sqrt 2 := Real.sqrt_pos.mpr (by norm_num)
      positivity)]
    exact Real.arccos_one

/-- C3, witness at antipodal centers (1,0,0) and (-1,0,0) with radius 1:
the angular distance pi exceeds 2 r + EPS, so no intersection points
are returned by main.cpp; the main.c conjunct is instantiated at the
same centers. -/
theorem c3_witness :
    (MCpp.get_small_circle_intersections ⟨1, 0, 0⟩ ⟨-1, 0, 0⟩ 1).length = 0 ∧
      ((MC.circleNodes ⟨1, 0, 0⟩ ⟨-1, 0, 0⟩ (1 / MCpp.R_earth)).length = 0 ∨
        (MC.circleNodes ⟨1, 0, 0⟩ ⟨-1, 0, 0⟩ (1 / MCpp.R_earth)).length = 2) := by
  refine ⟨?_, (c3_intersection_count ⟨1, 0, 0⟩ ⟨-1, 0, 0⟩ 1).2.2 ⟨1, 0, 0⟩
    ⟨-1, 0, 0⟩ (1 / MCpp.R_earth)⟩
  have hm : MCpp.magnitude ⟨-1, 0, 0⟩ = 1 := by
    unfold MCpp.magnitude MCpp.dot
    rw [show (-1 : ℝ) * (-1) + 0 * 0 + 0 * 0 = 1 by norm_num, Real.sqrt_one]
  have hn : MCpp.normalize ⟨-1, 0, 0⟩ = ⟨-1, 0, 0⟩ := by
    unfold MCpp.normalize
    rw [hm, if_neg (by norm_num [MCpp.EPSR])]
    unfold MCpp.divP
    norm_num
  have hd : MCpp.d_angOf ⟨1, 0, 0⟩ ⟨-1, 0, 0⟩ = Real.pi := by
    unfold MCpp.d_angOf
    rw [normalize_e1, hn]
    rw [show MCpp.dot ⟨1, 0, 0⟩ ⟨-1, 0, 0⟩ = -1 by norm_num [MCpp.dot]]
    rw [show MCpp.clampD (-1) = -1 by norm_num [MCpp.clampD]]
    exact Real.arccos_neg_one
  have h := (c3_intersection_count ⟨1, 0, 0⟩ ⟨-1, 0, 0⟩ 1).1
  rw [h, hd, if_pos]
  rw [MCpp.R_earth, MCpp.EPSR]
  nlinarith [Real.pi_gt_three]

theorem norm2pi_of_mem {x : ℝ} (h0 : 0 ≤ x) (h2 : x ≤ 2 * Real.pi) :
    MC.norm2pi x = x := by
  simp only [MC.norm2pi]
  rw [if_neg (not_lt.mpr h0), if_neg (not_lt.mpr h2)]

theorem norm2pi_of_neg {x : ℝ} (h0 : -(2 * Real.pi) ≤ x) (h1 : x < 0) :
    MC.norm2pi x = x + 2 * Real.pi := by
  have hpos : (0 : ℝ) < 2 * Real.pi := by positivity
  have hfloor : ⌊x / (2 * Real.pi)⌋ = -1 := by
    rw [Int.floor_eq_iff]
    constructor
    · push_cast
      rw [le_div_iff₀ hpos]
      linarith
    · push_cast
      have := div_neg_of_neg_of_pos h1 hpos
      linarith
  simp only [MC.norm2pi]
  rw [if_pos h1, hfloor]
  push_cast
  rw [show x - 2 * Real.pi * (-1) = x + 2 * Real.pi by ring]
  rw [if_neg (by linarith)]

theorem atan2_m1_1 : MC.atan2 (-1) 1 = -(Real.pi / 4) := by
  unfold MC.atan2
  have habs : Complex.abs ⟨1, -1⟩ = Real.sqrt 2 := by
    rw [Complex.abs_apply]
    congr 1
    rw [Complex.normSq_mk]
    norm_num
  have hre : (0 : ℝ) ≤ (⟨1, -1⟩ : ℂ).re := by norm_num
  rw [Complex.arg_of_re_nonneg hre, habs]
  have hsq2 : Real.sqrt 2 * Real.sqrt 2 = 2 := Real.mul_self_sqrt (by norm_num)
  have hsq2pos : (0 : ℝ) < Real.sqrt 2 := Real.sqrt_pos.mpr (by norm_num)
  have him : ((⟨1, -1⟩ : ℂ).im : ℝ) = -1 := rfl
  rw [him]
  rw [show (-1 : ℝ) / Real.sqrt 2 = -(Real.sqrt 2 / 2) by
    rw [neg_div]
    congr 1
    rw [div_eq_div_iff hsq2pos.ne' (by norm_num : (2 : ℝ) ≠ 0)]
    nlinarith]
  rw [Real.arcsin_neg]
  rw [show Real.sqrt 2 / 2 = Real.sin (Real.pi / 4) from Real.sin_pi_div_four.symm]
  rw [Real.arcsin_sin (by nlinarith [Real.pi_pos]) (by nlinarith [Real.pi_pos])]

theorem magnitude_e2 : MCpp.magnitude ⟨0, 1, 0⟩ = 1 := by
  unfold MCpp.magnitude MCpp.dot
  rw [show (0 : ℝ) * 0 + 1 * 1 + 0 * 0 = 1 by norm_num, Real.sqrt_one]

theorem normalize_e2 : MCpp.normalize ⟨0, 1, 0⟩ = ⟨0, 1, 0⟩ := by
  unfold MCpp.normalize
  rw [magnitude_e2, if_neg (by norm_num [MCpp.EPSR])]
  unfold MCpp.divP
  norm_num

theorem pt_quarter :
    MCpp.point_at_angle_on_great_circle ⟨1, 0, 0⟩ ⟨0, 1, 0⟩ (Real.pi / 4) =
      ⟨Real.cos (Real.pi / 4), Real.sin (Real.pi / 4), 0⟩ := by
  simp only [MCpp.point_at_angle_on_great_circle]
  rw [normalize_e1, normalize_e2]
  rw [show MCpp.dot ⟨1, 0, 0⟩ ⟨0, 1, 0⟩ = 0 by norm_num [MCpp.dot]]
  rw [show MCpp.clampD 0 = 0 by norm_num [MCpp.clampD]]
  rw [Real.arccos_zero]
  rw [if_neg (by rw [MCpp.EPSR]; nlinarith [Real.pi_gt_three])]
  rw [show MCpp.smul (⟨1, 0, 0⟩ : V3) 0 = ⟨0, 0, 0⟩ by norm_num [MCpp.smul]]
  rw [show MCpp.subP (⟨0, 1, 0⟩ : V3) ⟨0, 0, 0⟩ = ⟨0, 1, 0⟩ by
    norm_num [MCpp.subP]]
  rw [normalize_e2]
  unfold MCpp.addP MCpp.smul
  norm_num

/-- C2, code evaluation at the failing input: for the arc from
u = (1,0,0) to v = (0,1,0) (theta_ab = pi/2 as computed by main.c, third
conjunct) and the disk centered at u itself with cos(alpha) = 1/2
(alpha = pi/3), the basis vector W actually computed by main.c is
(v - u)/sin(theta) rather than the orthonormal (v - u cos(theta))/sin(theta)
promised by its own inline comment, so the emitted coverage is
[(0, arccos(sqrt 2 / 4) - pi/4)], which excludes the parameter pi/4 (first
conjunct) although the arc point at angle pi/4 lies within angular
distance alpha of the disk center (second conjunct, dot = sqrt 2 / 2 at
least cos(alpha) = 1/2).  The coverage analyzer therefore does not
return the set of parameters whose point lies within the disk. -/
theorem c2_wrong_basis_w :
    ¬ MC.memIv (Real.pi / 4)
        (MC.coverIntervals ⟨1, 0, 0⟩
          (MC.abW ⟨1, 0, 0⟩ ⟨0, 1, 0⟩ (Real.pi / 2)) ⟨1, 0, 0⟩ (1 / 2)
          (Real.pi / 2)) ∧
      MCpp.dot (MCpp.point_at_angle_on_great_circle ⟨1, 0, 0⟩ ⟨0, 1, 0⟩
          (Real.pi / 4)) ⟨1, 0, 0⟩ ≥ 1 / 2 ∧
      Real.arccos (MC.clampPM1 (MC.dot ⟨1, 0, 0⟩ ⟨0, 1, 0⟩)) = Real.pi / 2 := by
  have hsq2 : Real.sqrt 2 * Real.sqrt 2 = 2 := Real.mul_self_sqrt (by norm_num)
  have hsq2pos : (0 : ℝ) < Real.sqrt 2 := Real.sqrt_pos.mpr (by norm_num)
  have hsq2ge1 : (1 : ℝ) ≤ Real.sqrt 2 := by nlinarith
  have hpi := Real.pi_gt_three
  have habW : MC.abW ⟨1, 0, 0⟩ ⟨0, 1, 0⟩ (Real.pi / 2) = ⟨-1, 1, 0⟩ := by
    unfold MC.abW MC.subv MC.scale
    rw [Real.sin_pi_div_two]
    norm_num
  have hdelta0 : (0 : ℝ) ≤ Real.arccos (Real.sqrt 2 / 4) :=
    Real.arccos_nonneg _
  have hdeltalt : Real.arccos (Real.sqrt 2 / 4) < Real.pi / 2 :=
    Real.arccos_lt_pi_div_two.mpr (by positivity)
  have hdeltagt : Real.pi / 4 < Real.arccos (Real.sqrt 2 / 4) := by
    by_contra hcon
    push_neg at hcon
    rw [Real.arccos_le_pi_div_four] at hcon
    nlinarith
  have hcov : MC.coverIntervals ⟨1, 0, 0⟩ ⟨-1, 1, 0⟩ ⟨1, 0, 0⟩ (1 / 2)
      (Real.pi / 2) =
      [((0 : ℝ), -(Real.pi / 4) + Real.arccos (Real.sqrt 2 / 4))] := by
    simp only [MC.coverIntervals]
    rw [show MC.dot ⟨1, 0, 0⟩ ⟨1, 0, 0⟩ = 1 by norm_num [MC.dot]]
    rw [show MC.dot ⟨-1, 1, 0⟩ ⟨1, 0, 0⟩ = -1 by norm_num [MC.dot]]
    rw [show Real.sqrt ((1 : ℝ) * 1 + (-1) * (-1)) = Real.sqrt 2 by norm_num]
    rw [if_neg (by rw [not_lt]; nlinarith)]
    rw [if_neg (by rw [not_lt]; nlinarith)]
    rw [atan2_m1_1]
    rw [show (1 / 2 : ℝ) / Real.sqrt 2 = Real.sqrt 2 / 4 by
      rw [div_eq_div_iff hsq2pos.ne' (by norm_num : (4 : ℝ) ≠ 0)]
      nlinarith]
    rw [norm2pi_of_neg (by nlinarith) (by nlinarith)]
    rw [norm2pi_of_mem (by nlinarith) (by nlinarith)]
    rw [if_neg (by rw [not_le]; nlinarith)]
    rw [if_neg (by rw [not_le]; nlinarith)]
    rw [if_pos (by nlinarith : -(Real.pi / 4) + Real.arccos (Real.sqrt 2 / 4) ≥ 0)]
    rw [show max (0 : ℝ) 0 = 0 from max_self 0]
    rw [show min (Real.pi / 2) (-(Real.pi / 4) + Real.arccos (Real.sqrt 2 / 4)) =
        -(Real.pi / 4) + Real.arccos (Real.sqrt 2 / 4) from
      min_eq_right (by nlinarith)]
    rw [if_pos (by nlinarith)]
    simp
  refine ⟨?_, ?_, ?_⟩
  · rw [habW, hcov]
    rintro ⟨p, hp, hle1, hle2⟩
    rw [List.mem_singleton] at hp
    subst hp
    simp only at hle2
    nlinarith
  · rw [pt_quarter]
    have hc4 : MCpp.dot (⟨Real.cos (Real.pi / 4), Real.sin (Real.pi / 4), 0⟩ : V3)
        ⟨1, 0, 0⟩ = Real.cos (Real.pi / 4) := by
      unfold MCpp.dot
      ring
    rw [hc4, Real.cos_pi_div_four]
    nlinarith
  · rw [show MC.dot ⟨1, 0, 0⟩ ⟨0, 1, 0⟩ = 0 by norm_num [MC.dot]]
    rw [show MC.clampPM1 0 = 0 by norm_num [MC.clampPM1]]
    exact Real.arccos_zero
